import Mathlib

/- Verification of posthog/session_recordings/session_recording_data.py.

   Modelling conventions.
   * All timestamps in the source are integer epoch milliseconds; Python
     `datetime`/`timedelta` arithmetic on values produced by
     `parse_snapshot_timestamp` is exact at millisecond resolution, so a
     datetime is represented by its epoch offset in whole milliseconds
     (an `Int`), `parse_snapshot_timestamp` is the identity, and
     `timedelta(seconds=s)` is `s * 1000`, `timedelta(milliseconds=1)` is `1`.
   * Python dicts appearing as event `data` are association lists in
     insertion order; dict key lookup is `find?` on the key.
   * `WindowId` values only ever get compared for equality and used as dict
     keys, so they are represented by `Nat`.
   * Python dicts of the pipeline (`events_summary_by_window_id`,
     `start_and_end_times_by_window_id`) are association lists in insertion
     order; `sorted(d, key=...)` (a stable sort of the keys) is modelled with
     `List.insertionSort`, which is stable.
   * Functions that would raise in Python (indexing an empty list, `min` of an
     empty sequence) are modelled with an `Option` result guarded by the
     corresponding emptiness test. -/

namespace SessionRecording

/-- A Python value that can occur inside an event's `data` mapping. -/
inductive Value where
  | str (s : String)
  | int (n : Int)
  | bool (b : Bool)
  | dict (entries : List (String × Value))
  | null

/-- `RecordingSegment`: start/end instants (epoch ms), window id, activity flag. -/
structure RecordingSegment where
  start_time : Int
  end_time : Int
  window_id : Nat
  is_active : Bool
deriving DecidableEq

/-- `SessionRecordingEventSummary`: timestamp (epoch ms), rrweb event type,
and the retained `data` mapping. -/
structure EventSummary where
  timestamp : Int
  type : Int
  data : List (String × Value)

/-- Dict lookup (`d.get(k)` / `d[k]` when the key is present). -/
def lookupKey (d : List (String × Value)) (k : String) : Option Value :=
  (d.find? (fun p => p.1 == k)).map (fun p => p.2)

/- The `event.data.source` enum table from the source file (each Python class
attribute, verbatim; note that several late entries are all assigned 1). -/
namespace RRWEB_MAP_EVENT_DATA_SOURCE

def Mutation : Int := 0

def MouseMove : Int := 1

def MouseInteraction : Int := 2

def Scroll : Int := 3

def ViewportResize : Int := 4

def Input : Int := 5

def TouchMove : Int := 6

def MediaInteraction : Int := 7

def StyleSheetRule : Int := 8

def CanvasMutation : Int := 9

def Font : Int := 1

def Log : Int := 1

def Drag : Int := 1

def StyleDeclaration : Int := 1

def Selection : Int := 1

end RRWEB_MAP_EVENT_DATA_SOURCE

/-- The literal list `active_rr_web_sources` from `is_active_event`. -/
def active_rr_web_sources : List Int := [1, 2, 3, 4, 5, 6, 7, 12]

/-- Python `v == n` for a data value `v` and an int literal `n`
(`True == 1` and `False == 0` hold in Python; strings, dicts and `None`
never equal an int). -/
def pyEqInt (v : Value) (n : Int) : Bool :=
  match v with
  | .int m => m == n
  | .bool b => (if b then (1 : Int) else 0) == n
  | _ => false

/-- `is_active_event`: `event["type"] == 3 and event["data"].get("source") in
active_rr_web_sources`. -/
def is_active_event (e : EventSummary) : Bool :=
  e.type == 3 &&
    (match lookupKey e.data "source" with
     | some v => active_rr_web_sources.any (fun n => pyEqInt v n)
     | none => false)

/-- `parse_snapshot_timestamp`: identity under the epoch-milliseconds
representation of datetimes. -/
def parse_snapshot_timestamp (t : Int) : Int := t

def ACTIVITY_THRESHOLD_SECONDS : Int := 10

/-- The loop of `get_active_segments_from_event_list`: walks the active event
timestamps carrying the list of closed segments and the currently open one. -/
def activeSegLoop (window_id : Nat) (thresholdMs : Int) :
    List Int → List RecordingSegment → Option RecordingSegment →
    List RecordingSegment × Option RecordingSegment
  | [], acc, cur => (acc, cur)
  | t :: ts, acc, cur =>
    match cur with
    | some c =>
      if t - c.end_time ≤ thresholdMs then
        activeSegLoop window_id thresholdMs ts acc (some { c with end_time := t })
      else
        activeSegLoop window_id thresholdMs ts (acc ++ [c]) (some ⟨t, t, window_id, true⟩)
    | none => activeSegLoop window_id thresholdMs ts acc (some ⟨t, t, window_id, true⟩)

/-- The final flush of `get_active_segments_from_event_list`: mirrors the
Python `if current_active_segment and (len(...) == 0 or ...[-1] !=
current_active_segment)` guard (dict *value* inequality). -/
def flushResult (p : List RecordingSegment × Option RecordingSegment) : List RecordingSegment :=
  match p.2 with
  | some c => if p.1 = [] ∨ p.1.getLast? ≠ some c then p.1 ++ [c] else p.1
  | none => p.1

/-- `get_active_segments_from_event_list`. -/
def get_active_segments_from_event_list (event_list : List EventSummary) (window_id : Nat)
    (activity_threshold_seconds : Int := ACTIVITY_THRESHOLD_SECONDS) : List RecordingSegment :=
  let active_event_timestamps := (event_list.filter is_active_event).map (fun e => e.timestamp)
  flushResult (activeSegLoop window_id (activity_threshold_seconds * 1000)
    active_event_timestamps [] none)

/-- `EVENT_SUMMARY_DATA_INCLUSIONS` from the source. -/
def EVENT_SUMMARY_DATA_INCLUSIONS : List String :=
  ["type", "source", "tag", "plugin", "href", "width", "height", "payload.href", "payload.level"]

/-- Python `type(value) in [str, int]` (`bool` is its own type in Python, so
booleans fail this test). -/
def isStrOrInt : Value → Bool
  | .str _ => true
  | .int _ => true
  | _ => false

/-- Python truthiness of a data value. -/
def truthy : Value → Bool
  | .str s => !(s == "")
  | .int n => !(n == 0)
  | .bool b => b
  | .dict l => !l.isEmpty
  | .null => false

/-- A raw `SnapshotData` event: the three keys the summariser reads, each
optional because the corresponding Python dict key may be absent. -/
structure SnapshotData where
  timestamp : Option Int
  type : Option Int
  data : Option (List (String × Value))

/-- The `data` computation inside `get_events_summary_from_snapshot_data`:
keep string/int top-level entries whose key is in the inclusion list, then, if
`data.get("payload")` is truthy and is a dict, append a filtered `payload`
entry. -/
def projectData (d : List (String × Value)) : List (String × Value) :=
  let base := d.filter (fun p => isStrOrInt p.2 && EVENT_SUMMARY_DATA_INCLUSIONS.contains p.1)
  match lookupKey d "payload" with
  | some pv =>
    if truthy pv then
      match pv with
      | .dict pl =>
        base ++ [("payload", .dict (pl.filter (fun p =>
          isStrOrInt p.2 && EVENT_SUMMARY_DATA_INCLUSIONS.contains ("payload." ++ p.1))))]
      | _ => base
    else base
  | none => base

/-- The body of the `for event in snapshot_data` loop: skip events lacking a
`timestamp` or `type` key, otherwise build the summary. -/
def summarizeEvent (e : SnapshotData) : Option EventSummary :=
  match e.timestamp, e.type with
  | some ts, some ty => some ⟨ts, ty, projectData (e.data.getD [])⟩
  | _, _ => none

instance : DecidableRel (fun (a b : EventSummary) => a.timestamp ≤ b.timestamp) :=
  fun a b => Int.decLe a.timestamp b.timestamp

instance : IsTotal EventSummary (fun a b => a.timestamp ≤ b.timestamp) :=
  ⟨fun a b => le_total a.timestamp b.timestamp⟩

instance : IsTrans EventSummary (fun a b => a.timestamp ≤ b.timestamp) :=
  ⟨fun _ _ _ h1 h2 => le_trans h1 h2⟩

/-- `get_events_summary_from_snapshot_data` (the final `events_summary.sort`
is Python's stable sort by timestamp). -/
def get_events_summary_from_snapshot_data (snapshot_data : List SnapshotData) :
    List EventSummary :=
  List.insertionSort (fun a b => a.timestamp ≤ b.timestamp)
    (snapshot_data.filterMap summarizeEvent)

/-- Lookup of `start_and_end_times_by_window_id[window_id]`. -/
def lookupWindow (bounds : List (Nat × RecordingSegment)) (wid : Nat) :
    Option RecordingSegment :=
  (bounds.find? (fun p => p.1 == wid)).map (fun p => p.2)

instance : DecidableRel (fun (a b : Nat × RecordingSegment) => a.2.start_time ≤ b.2.start_time) :=
  fun a b => Int.decLe a.2.start_time b.2.start_time

instance : IsTotal (Nat × RecordingSegment) (fun a b => a.2.start_time ≤ b.2.start_time) :=
  ⟨fun a b => le_total a.2.start_time b.2.start_time⟩

instance : IsTrans (Nat × RecordingSegment) (fun a b => a.2.start_time ≤ b.2.start_time) :=
  ⟨fun _ _ _ h1 h2 => le_trans h1 h2⟩

/-- `sorted(start_and_end_times_by_window_id, key=lambda x: ...["start_time"])`
on the underlying ordered dict. -/
def sortBoundsByStart (bounds : List (Nat × RecordingSegment)) :
    List (Nat × RecordingSegment) :=
  List.insertionSort (fun a b => a.2.start_time ≤ b.2.start_time) bounds

/-- The emission loop of `generate_inactive_segments_for_range`: walk the
window-id priority list with the `current_time` cursor. -/
def emitInactive (bounds : List (Nat × RecordingSegment)) (range_end_time : Int) :
    List Nat → Int → List RecordingSegment
  | [], _ => []
  | wid :: rest, current_time =>
    match lookupWindow bounds wid with
    | some w =>
      if w.end_time > current_time ∧ current_time < range_end_time then
        let segment_start_time := max w.start_time current_time
        let segment_end_time := min w.end_time range_end_time
        ⟨segment_start_time, segment_end_time, wid, false⟩ ::
          emitInactive bounds range_end_time rest (min segment_end_time w.end_time)
      else emitInactive bounds range_end_time rest current_time
    | none => emitInactive bounds range_end_time rest current_time

/-- The boundary-repair loop of `generate_inactive_segments_for_range`:
`po` is `none` at index 0 and `some (previous segment's original end_time)`
afterwards (a previous end is never modified before it is read, because end
times are only modified at the last index). -/
def adjustInactive (range_start_time range_end_time : Int)
    (is_first_segment is_last_segment : Bool) :
    Option Int → List RecordingSegment → List RecordingSegment
  | _, [] => []
  | po, seg :: rest =>
    let bumpStart : Bool :=
      match po with
      | none => seg.start_time == range_start_time && !is_first_segment
      | some pe => seg.start_time == pe
    let s := if bumpStart then seg.start_time + 1 else seg.start_time
    let e := if rest.isEmpty && seg.end_time == range_end_time && !is_last_segment then
        seg.end_time - 1
      else seg.end_time
    ⟨s, e, seg.window_id, seg.is_active⟩ ::
      adjustInactive range_start_time range_end_time is_first_segment is_last_segment
        (some seg.end_time) rest

/-- `generate_inactive_segments_for_range`. -/
def generate_inactive_segments_for_range (range_start_time range_end_time : Int)
    (last_active_window_id : Nat)
    (start_and_end_times_by_window_id : List (Nat × RecordingSegment))
    (is_first_segment : Bool := false) (is_last_segment : Bool := false) :
    List RecordingSegment :=
  let window_ids_by_start_time :=
    (sortBoundsByStart start_and_end_times_by_window_id).map (fun p => p.1)
  let window_id_priority_list := last_active_window_id :: window_ids_by_start_time
  adjustInactive range_start_time range_end_time is_first_segment is_last_segment none
    (emitInactive start_and_end_times_by_window_id range_end_time
      window_id_priority_list range_start_time)

/-- The per-window entry of `start_and_end_times_by_window_id`: first and last
summary timestamps (the events list is non-empty whenever this is used). -/
def windowBounds (window_id : Nat) (events_summary : List EventSummary) : RecordingSegment :=
  ⟨((events_summary.head?).map (fun e => e.timestamp)).getD 0,
   ((events_summary.getLast?).map (fun e => e.timestamp)).getD 0,
   window_id, false⟩

def boundsByWindow (m : List (Nat × List EventSummary)) : List (Nat × RecordingSegment) :=
  m.map (fun p => (p.1, windowBounds p.1 p.2))

/-- `min(x["start_time"] for x in ...)` over a non-empty bounds dict. -/
def first_start_time (bounds : List (Nat × RecordingSegment)) : Int :=
  match bounds.map (fun p => p.2.start_time) with
  | [] => 0
  | x :: xs => xs.foldl min x

/-- `max(x["end_time"] for x in ...)` over a non-empty bounds dict. -/
def last_end_time (bounds : List (Nat × RecordingSegment)) : Int :=
  match bounds.map (fun p => p.2.end_time) with
  | [] => 0
  | x :: xs => xs.foldl max x

instance : DecidableRel (fun (a b : RecordingSegment) => a.start_time ≤ b.start_time) :=
  fun a b => Int.decLe a.start_time b.start_time

instance : IsTotal RecordingSegment (fun a b => a.start_time ≤ b.start_time) :=
  ⟨fun a b => le_total a.start_time b.start_time⟩

instance : IsTrans RecordingSegment (fun a b => a.start_time ≤ b.start_time) :=
  ⟨fun _ _ _ h1 h2 => le_trans h1 h2⟩

/-- All windows' active segments (default activity threshold), concatenated
and stably sorted by start time. -/
def allActiveSorted (m : List (Nat × List EventSummary)) : List RecordingSegment :=
  List.insertionSort (fun a b => a.start_time ≤ b.start_time)
    ((m.map (fun p => get_active_segments_from_event_list p.2 p.1)).flatten)

/-- `sorted(start_and_end_times_by_window_id, key=...)[0]`: the window id with
the earliest start time (the dict is non-empty whenever this is used). -/
def initialWindowId (bounds : List (Nat × RecordingSegment)) : Nat :=
  (((sortBoundsByStart bounds).map (fun p => p.1)).head?).getD 0

/-- The `for index, segment in enumerate(all_active_segments)` loop of
`get_metadata_from_events_summary`: emits the gap-filled segment list and
returns the final `current_timestamp` and `current_window_id`.  The `Bool`
argument is `index == 0`. -/
def fillLoop (bounds : List (Nat × RecordingSegment)) :
    List RecordingSegment → Int → Nat → Bool → List RecordingSegment × Int × Nat
  | [], ct, cw, _ => ([], ct, cw)
  | seg :: rest, ct, cw, fi =>
    let gap := if seg.start_time > ct then
        generate_inactive_segments_for_range ct seg.start_time cw bounds fi false
      else []
    let r := fillLoop bounds rest (max seg.end_time ct) seg.window_id false
    (gap ++ seg :: r.1, r.2)

/-- The full `all_segments` list built by `get_metadata_from_events_summary`,
including the trailing inactive fill up to the recording end. -/
def allSegments (m : List (Nat × List EventSummary)) : List RecordingSegment :=
  let bounds := boundsByWindow m
  let fst := first_start_time bounds
  let lst := last_end_time bounds
  let r := fillLoop bounds (allActiveSorted m) fst (initialWindowId bounds) true
  r.1 ++
    (if r.2.1 < lst then
      generate_inactive_segments_for_range r.2.1 lst r.2.2 bounds (r.2.1 == fst) true
    else [])

/-- `RecordingMetadata` (the `distinct_id` is filled by the caller). -/
structure RecordingMetadata where
  distinct_id : String
  segments : List RecordingSegment
  start_and_end_times_by_window_id : List (Nat × RecordingSegment)
  start_time : Int
  end_time : Int
  duration : Int
  click_count : Nat
  keypress_count : Nat
  urls : List String
deriving DecidableEq

/-- Python `x["data"]["source"] == n` for a summary, evaluated only when
`x["type"] == 3` (short-circuit `and`) and, in
`get_metadata_from_events_summary`, only after the `summaryRaisesKeyError`
guard below has ruled out a missing `source` key, so the `none` branch is
unreachable where this is used. -/
def sourceEquals (e : EventSummary) (n : Int) : Bool :=
  match lookupKey e.data "source" with
  | some v => pyEqInt v n
  | none => false

/-- Python raises `KeyError` at `x["data"]["source"]` (in the `click_count` /
`keypress_count` comprehensions) exactly when a summary has `type == 3` but
its data lacks a `source` key; such a call never returns. -/
def summaryRaisesKeyError (x : EventSummary) : Bool :=
  x.type == 3 && (lookupKey x.data "source").isNone

/-- `get_metadata_from_events_summary`.  Returns `none` exactly when the
Python function would raise: on an empty dict or an empty per-window events
list (it indexes `events_summary[0]`/`[-1]` and takes `min`/`max` of the
per-window times), or when the `click_count`/`keypress_count` comprehensions
raise `KeyError` because some summary has `type == 3` but no `source` key
(the second guard).  `duration` is `(last_end_time - first_start_time).seconds`,
i.e. the *seconds component* of the timedelta: floor-divide the millisecond
span by 1000, then take the remainder modulo 86400 (Python `//` and `%` are
floor division and floor modulus). -/
def get_metadata_from_events_summary (events_summary_by_window_id : List (Nat × List EventSummary)) :
    Option RecordingMetadata :=
  if events_summary_by_window_id.isEmpty || events_summary_by_window_id.any (fun p => p.2.isEmpty) then
    none
  else if ((events_summary_by_window_id.map (fun p => p.2)).flatten.any summaryRaisesKeyError) then
    none
  else
    let bounds := boundsByWindow events_summary_by_window_id
    let all_events_summary := (events_summary_by_window_id.map (fun p => p.2)).flatten
    some {
      distinct_id := ""
      segments := allSegments events_summary_by_window_id
      start_and_end_times_by_window_id := bounds
      start_time := first_start_time bounds
      end_time := last_end_time bounds
      duration := ((last_end_time bounds - first_start_time bounds).fdiv 1000).fmod 86400
      click_count := (all_events_summary.filter (fun x => x.type == 3 && sourceEquals x 2)).length
      keypress_count := (all_events_summary.filter (fun x => x.type == 3 && sourceEquals x 5)).length
      urls := all_events_summary.filterMap (fun x =>
        match lookupKey x.data "href" with
        | some (.str s) => some s
        | _ => none)
    }

/- ------------------------------------------------------------------ -/
/- Claim-side definitions: restatements of the algorithms in the words of
   the spec/claims, to be compared with the source-side definitions above. -/
/- ------------------------------------------------------------------ -/

/-- Apply `f` to the last element of a list only. -/
def mapLast (f : RecordingSegment → RecordingSegment) : List RecordingSegment → List RecordingSegment
  | [] => []
  | [x] => [f x]
  | x :: y :: rest => x :: mapLast f (y :: rest)

/-- Boundary repair exactly as claim C3 (and §4.3 of the spec) states it:
the *only* adjustments are the first segment's start (+1 ms when it equals
`range_start` and this is not the global recording start) and the last
segment's end (−1 ms when it equals `range_end` and this is not the global
recording end). -/
def claimedAdjustC3 (range_start_time range_end_time : Int)
    (is_first_segment is_last_segment : Bool) (segs : List RecordingSegment) :
    List RecordingSegment :=
  let withFirst :=
    match segs with
    | [] => []
    | first :: rest =>
      (if first.start_time == range_start_time && !is_first_segment then
        { first with start_time := first.start_time + 1 } else first) :: rest
  mapLast (fun lastSeg =>
    if lastSeg.end_time == range_end_time && !is_last_segment then
      { lastSeg with end_time := lastSeg.end_time - 1 } else lastSeg) withFirst

/-- `generate_inactive_segments_for_range` as claim C3 describes it: the same
priority-list walk, but with `claimedAdjustC3` as the only boundary repair. -/
def claimedGenerateC3 (range_start_time range_end_time : Int) (last_active_window_id : Nat)
    (bounds : List (Nat × RecordingSegment)) (is_first_segment is_last_segment : Bool) :
    List RecordingSegment :=
  claimedAdjustC3 range_start_time range_end_time is_first_segment is_last_segment
    (emitInactive bounds range_end_time
      (last_active_window_id :: (sortBoundsByStart bounds).map (fun p => p.1))
      range_start_time)

/-- The start-time repair rule of the *amended* claim C3, applied to a segment
paired with the previous segment's pre-repair end time (`none` for the first
segment): the first segment is pushed forward 1 ms when its start equals
`range_start` and the call is not at the global recording start, and every
later segment is pushed forward 1 ms when its start equals the previous
segment's pre-repair end. -/
def startBumpC3 (range_start_time : Int) (is_first_segment : Bool)
    (q : RecordingSegment × Option Int) : RecordingSegment :=
  match q.2 with
  | none =>
    if q.1.start_time == range_start_time && !is_first_segment then
      { q.1 with start_time := q.1.start_time + 1 } else q.1
  | some pe =>
    if q.1.start_time == pe then { q.1 with start_time := q.1.start_time + 1 } else q.1

/-- The end-time repair rule of claim C3 (unchanged by the amendment). -/
def endBumpC3 (range_end_time : Int) (is_last_segment : Bool) (s : RecordingSegment) :
    RecordingSegment :=
  if s.end_time == range_end_time && !is_last_segment then
    { s with end_time := s.end_time - 1 } else s

/-- Boundary repair as the amended claim C3 states it, with `po` the
pre-repair end of the segment before the current block (`none` at the head of
the whole list). -/
def amendedAdjustC3 (range_start_time range_end_time : Int)
    (is_first_segment is_last_segment : Bool) (po : Option Int)
    (segs : List RecordingSegment) : List RecordingSegment :=
  mapLast (endBumpC3 range_end_time is_last_segment)
    ((segs.zip (po :: segs.map (fun s => some s.end_time))).map
      (startBumpC3 range_start_time is_first_segment))

/-- `generate_inactive_segments_for_range` as the amended claim C3 describes
it. -/
def amendedGenerateC3 (range_start_time range_end_time : Int) (last_active_window_id : Nat)
    (bounds : List (Nat × RecordingSegment)) (is_first_segment is_last_segment : Bool) :
    List RecordingSegment :=
  amendedAdjustC3 range_start_time range_end_time is_first_segment is_last_segment none
    (emitInactive bounds range_end_time
      (last_active_window_id :: (sortBoundsByStart bounds).map (fun p => p.1))
      range_start_time)

/-- The classifier walk as claim C4 describes it: carry the current open
segment; extend it when the gap to the next active timestamp is at most the
threshold, otherwise close it and open a new zero-length one; flush the final
open segment unconditionally. -/
def classifyWalkC4 (window_id : Nat) (thresholdMs : Int) :
    RecordingSegment → List Int → List RecordingSegment
  | c, [] => [c]
  | c, t :: ts =>
    if t - c.end_time ≤ thresholdMs then
      classifyWalkC4 window_id thresholdMs { c with end_time := t } ts
    else c :: classifyWalkC4 window_id thresholdMs ⟨t, t, window_id, true⟩ ts

/-- `get_active_segments_from_event_list` as claim C4 describes it. -/
def claimedClassifyC4 (event_list : List EventSummary) (window_id : Nat)
    (activity_threshold_seconds : Int) : List RecordingSegment :=
  match (event_list.filter is_active_event).map (fun e => e.timestamp) with
  | [] => []
  | t :: ts =>
    classifyWalkC4 window_id (activity_threshold_seconds * 1000) ⟨t, t, window_id, true⟩ ts

/-- The per-event `data` projection exactly as claim C8 states it: top-level
string/int entries are kept when their key is in the claim's seven-key set
`{type, source, tag, plugin, href, width, height}`, and a nested `payload`
entry is added whenever `data.payload` *is a mapping*, keeping its string/int
entries whose `payload.`-prefixed key is in `{payload.href, payload.level}`. -/
def claimedProjectDataC8 (d : List (String × Value)) : List (String × Value) :=
  let base := d.filter (fun p => isStrOrInt p.2 &&
    ["type", "source", "tag", "plugin", "href", "width", "height"].contains p.1)
  match lookupKey d "payload" with
  | some (.dict pl) =>
    base ++ [("payload", .dict (pl.filter (fun p =>
      isStrOrInt p.2 && ["payload.href", "payload.level"].contains ("payload." ++ p.1))))]
  | _ => base

/-- `get_events_summary_from_snapshot_data` as claim C8 states it. -/
def claimedSummarizeC8 (snapshot_data : List SnapshotData) : List EventSummary :=
  List.insertionSort (fun a b => a.timestamp ≤ b.timestamp)
    (snapshot_data.filterMap (fun e =>
      match e.timestamp, e.type with
      | some ts, some ty => some ⟨ts, ty, claimedProjectDataC8 (e.data.getD [])⟩
      | _, _ => none))

/-- The per-event `data` projection as the *amended* claim C8 states it:
top-level string/int entries are kept when their key is in the *full*
inclusion list `EVENT_SUMMARY_DATA_INCLUSIONS` (so a top-level key literally
named `payload.href` or `payload.level` is retained, as the code does), and a
nested `payload` entry is added whenever `data.payload` is a mapping with at
least one entry (Python truthiness of a dict), keeping its string/int entries
whose `payload.`-prefixed key is in the inclusion list. -/
def amendedProjectDataC8 (d : List (String × Value)) : List (String × Value) :=
  let base := d.filter (fun p => isStrOrInt p.2 && EVENT_SUMMARY_DATA_INCLUSIONS.contains p.1)
  match lookupKey d "payload" with
  | some (.dict (q :: qs)) =>
    base ++ [("payload", .dict ((q :: qs).filter (fun p =>
      isStrOrInt p.2 && EVENT_SUMMARY_DATA_INCLUSIONS.contains ("payload." ++ p.1))))]
  | _ => base

/-- `get_events_summary_from_snapshot_data` as the amended claim C8 states
it. -/
def amendedSummarizeC8 (snapshot_data : List SnapshotData) : List EventSummary :=
  List.insertionSort (fun a b => a.timestamp ≤ b.timestamp)
    (snapshot_data.filterMap (fun e =>
      match e.timestamp, e.type with
      | some ts, some ty => some ⟨ts, ty, amendedProjectDataC8 (e.data.getD [])⟩
      | _, _ => none))

/- ------------------------------------------------------------------ -/
/- Concrete inputs used by counterexamples and witnesses. -/
/- ------------------------------------------------------------------ -/

/-- An incremental-snapshot summary with the given timestamp and source. -/
def activeEv (t : Int) (src : Int) : EventSummary := ⟨t, 3, [("source", .int src)]⟩

/-- A non-active (full snapshot) summary. -/
def passiveEv (t : Int) : EventSummary := ⟨t, 2, []⟩

/-- Two windows whose bounds leave `(10000, 100000)` uncovered: window 1 spans
0–10 s, window 2 spans 100–200 s. -/
def c1CexInput : List (Nat × List EventSummary) :=
  [(1, [activeEv 0 1, activeEv 10000 1]), (2, [activeEv 100000 1, activeEv 200000 1])]

/-- Two windows whose active segments abut at the interior instant 10000. -/
def c2CexInput : List (Nat × List EventSummary) :=
  [(1, [activeEv 0 1, activeEv 10000 1]), (2, [activeEv 10000 1, activeEv 20000 1])]

/-- Window bounds for the C3 counterexample: window 1 spans 0–50, window 2
spans 40–100, so gap-filling `[0, 100)` emits two abutting segments. -/
def c3CexBounds : List (Nat × RecordingSegment) :=
  [(1, ⟨0, 50, 1, false⟩), (2, ⟨40, 100, 2, false⟩)]

/-- A raw event whose `data` has a top-level key literally named
`payload.href` and whose `data.payload` is an *empty* mapping: the source
keeps the former (it filters against the full inclusion list) and adds no
nested entry for the latter (empty dicts are falsy); claim C8 as stated says
the opposite on both counts. -/
def c8CexEvent : SnapshotData :=
  ⟨some 0, some 3, some [("payload.href", .str "x"), ("payload", .dict [])]⟩

/-- One window, two summaries: one click (source 2), one keypress (source 5). -/
def c6Input : List (Nat × List EventSummary) :=
  [(1, [activeEv 0 2, activeEv 1 5])]

/-- A non-empty mapping with a non-empty summary list whose single summary has
`type == 3` but no `source` key: the count comprehensions raise `KeyError`. -/
def c6CexInput : List (Nat × List EventSummary) := [(1, [⟨0, 3, []⟩])]

/-- The metadata computed for `c6Input`. -/
def c6Md : RecordingMetadata :=
  ⟨"", [⟨0, 1, 1, true⟩], [(1, ⟨0, 1, 1, false⟩)], 0, 1, 0, 1, 1, []⟩

/-- One window whose two events are 25 hours (90000 s) apart. -/
def c7Input : List (Nat × List EventSummary) :=
  [(1, [passiveEv 0, passiveEv 90000000])]

/-- Scenario A of the spec: active events at 0 s, 5 s and 30 s. -/
def c4WitnessEvents : List EventSummary := [activeEv 0 1, activeEv 5000 1, activeEv 30000 1]

/-- One window, active events at 0 s and 20 s (whose bounds cover the whole
recording). -/
def c1WitnessInput : List (Nat × List EventSummary) := [(1, [activeEv 0 1, activeEv 20000 1])]

/-- The metadata computed for `c1WitnessInput`. -/
def c1WitnessMd : RecordingMetadata :=
  ⟨"", [⟨0, 0, 1, true⟩, ⟨1, 19999, 1, false⟩, ⟨20000, 20000, 1, true⟩],
    [(1, ⟨0, 20000, 1, false⟩)], 0, 20000, 20, 0, 0, []⟩

/-- Scenario A as a one-window aggregation input. -/
def c2WitnessInput : List (Nat × List EventSummary) :=
  [(7, [activeEv 0 1, activeEv 5000 1, activeEv 30000 1])]

/-- The metadata computed for `c2WitnessInput`. -/
def c2WitnessMd : RecordingMetadata :=
  ⟨"", [⟨0, 5000, 7, true⟩, ⟨5001, 29999, 7, false⟩, ⟨30000, 30000, 7, true⟩],
    [(7, ⟨0, 30000, 7, false⟩)], 0, 30000, 30, 0, 0, []⟩

/- ------------------------------------------------------------------ -/
/- Predicates used to state the gap-filler and pipeline invariants. -/
/- ------------------------------------------------------------------ -/

/-- Facts the emission loop guarantees *unconditionally* about its output,
relative to the cursor value `t`: each segment starts at or after the cursor,
ends strictly after the cursor and at or before `range_end`, is inactive, and
the cursor moves to its end. -/
def EmitLoose (range_end_time : Int) : Int → List RecordingSegment → Prop
  | _, [] => True
  | t, s :: rest => t ≤ s.start_time ∧ t < s.end_time ∧ s.end_time ≤ range_end_time ∧
      s.is_active = false ∧ EmitLoose range_end_time s.end_time rest

/-- The emission loop's output forms an exact chain from `t` to `range_end`:
each segment starts exactly at the cursor, ends strictly later, and the final
cursor is exactly `range_end`.  This holds when the window bounds cover the
range (see `emitChain_priority`). -/
def isEmitChain (range_end_time : Int) : Int → List RecordingSegment → Prop
  | t, [] => t = range_end_time
  | t, s :: rest => s.start_time = t ∧ t < s.end_time ∧ s.end_time ≤ range_end_time ∧
      isEmitChain range_end_time s.end_time rest

/-- The start time of the window a priority-list id resolves to (0 when the id
is absent; only used under a resolvability hypothesis). -/
def windowStartOf (bounds : List (Nat × RecordingSegment)) (wid : Nat) : Int :=
  match lookupWindow bounds wid with
  | some b => b.start_time
  | none => 0

/- ------------------------------------------------------------------ -/
/- Theorems. -/
/- ------------------------------------------------------------------ -/

/-- C9: `is_active_event e` holds iff `e.type == 3` and `e.data.source` is an
integer in `{1,2,3,4,5,6,7,12}`; a summary whose data has no `source` key is
never active; source codes 8 (StyleSheetRule) and 9 (CanvasMutation) are not
in the active set; 12 is in the active set even though the `Drag` entry of the
RRWEB source-enum table carries the value 1. -/
theorem c9_is_active_event_characterization :
    (∀ (e : EventSummary) (s : Int), lookupKey e.data "source" = some (Value.int s) →
      (is_active_event e = true ↔ e.type = 3 ∧ s ∈ active_rr_web_sources)) ∧
    (∀ e : EventSummary, lookupKey e.data "source" = none → is_active_event e = false) ∧
    ((8 : Int) ∉ active_rr_web_sources ∧ RRWEB_MAP_EVENT_DATA_SOURCE.StyleSheetRule = 8) ∧
    ((9 : Int) ∉ active_rr_web_sources ∧ RRWEB_MAP_EVENT_DATA_SOURCE.CanvasMutation = 9) ∧
    ((12 : Int) ∈ active_rr_web_sources ∧ RRWEB_MAP_EVENT_DATA_SOURCE.Drag = 1) := by
  refine ⟨?_, ?_, by decide, by decide, by decide⟩
  · intro e s h
    simp only [is_active_event, h, Bool.and_eq_true, beq_iff_eq]
    constructor
    · rintro ⟨h1, h2⟩
      refine ⟨h1, ?_⟩
      simp only [List.any_eq_true, pyEqInt, beq_iff_eq] at h2
      obtain ⟨n, hn, rfl⟩ := h2
      exact hn
    · rintro ⟨h1, h2⟩
      refine ⟨h1, ?_⟩
      simp only [List.any_eq_true, pyEqInt, beq_iff_eq]
      exact ⟨s, h2, rfl⟩
  · intro e h
    simp [is_active_event, h]

/-- Witness for C9 at a concrete summary with source 12. -/
theorem c9_witness : is_active_event ⟨0, 3, [("source", Value.int 12)]⟩ = true :=
  (c9_is_active_event_characterization.1 ⟨0, 3, [("source", Value.int 12)]⟩ 12 rfl).mpr
    ⟨rfl, by decide⟩

/-- C6 (amended): on any input `get_metadata_from_events_summary` returns a
value for — in particular, when no summary has `type == 3` without a `source`
key, since the counting comprehensions raise `KeyError` otherwise —
`click_count` is the number of summaries across all windows with `type == 3`
and `data.source == 2`, and `keypress_count` the number with `type == 3` and
`data.source == 5`. -/
theorem c6_click_and_keypress_counts :
    ∀ m md, get_metadata_from_events_summary m = some md →
      md.click_count = (m.map (fun p => p.2)).flatten.countP
        (fun x => x.type == 3 && sourceEquals x 2) ∧
      md.keypress_count = (m.map (fun p => p.2)).flatten.countP
        (fun x => x.type == 3 && sourceEquals x 5) := by
  intro m md h
  unfold get_metadata_from_events_summary at h
  split at h
  · exact absurd h (by simp)
  · split at h
    · exact absurd h (by simp)
    · obtain rfl : _ = md := Option.some.inj h
      exact ⟨(List.countP_eq_length_filter _ _).symm, (List.countP_eq_length_filter _ _).symm⟩

/-- Counterexample to C6 as stated: on a non-empty mapping carrying a
non-empty summary list whose summary has `type == 3` but no `source` key, the
program raises `KeyError` at `x["data"]["source"]` (modelled by the `none`
result) instead of returning the claimed counts. -/
theorem c6_counterexample :
    get_metadata_from_events_summary c6CexInput = none ∧
    c6CexInput ≠ [] ∧ (∀ p ∈ c6CexInput, p.2 ≠ []) := by
  refine ⟨rfl, List.cons_ne_nil _ _, ?_⟩
  intro p hp
  rw [show c6CexInput = [(1, [⟨0, 3, []⟩])] from rfl, List.mem_singleton] at hp
  subst hp
  exact List.cons_ne_nil _ _

/-- Witness for C6 at a concrete two-summary recording. -/
theorem c6_witness :
    c6Md.click_count = (c6Input.map (fun p => p.2)).flatten.countP
      (fun x => x.type == 3 && sourceEquals x 2) ∧
    c6Md.keypress_count = (c6Input.map (fun p => p.2)).flatten.countP
      (fun x => x.type == 3 && sourceEquals x 5) :=
  c6_click_and_keypress_counts c6Input c6Md rfl

/-- C7 (code bug evidence): on a recording spanning 25 hours (90000000 ms,
i.e. 90000 whole seconds), the returned `duration` is 3600, the seconds
*component* of the timedelta (90000 mod 86400), not the floor of the elapsed
seconds, which is 90000. -/
theorem c7_duration_is_seconds_component :
    (get_metadata_from_events_summary c7Input).map
      (fun md => (md.duration, md.start_time, md.end_time)) = some (3600, 0, 90000000) ∧
    ((90000000 : Int) - 0).fdiv 1000 = 90000 ∧ (3600 : Int) ≠ 90000 :=
  ⟨rfl, rfl, by decide⟩

/-- Counterexample to C1 as stated: for two timestamp-sorted windows (window 1
spanning 0–10 s, window 2 spanning 100–200 s) the returned segments leave the
instant 50000 of `[global_start, global_end] = [0, 200000]` uncovered (no
window's bounds cover the region between the two windows, and the gap filler
only draws on window bounds). -/
theorem c1_counterexample :
    (get_metadata_from_events_summary c1CexInput).map
      (fun md => (md.segments, md.start_time, md.end_time)) =
      some ([⟨0, 10000, 1, true⟩, ⟨100000, 99999, 2, false⟩, ⟨100000, 100000, 2, true⟩,
             ⟨100001, 199999, 2, false⟩, ⟨200000, 200000, 2, true⟩], 0, 200000) ∧
    ([⟨0, 10000, 1, true⟩, ⟨100000, 99999, 2, false⟩, ⟨100000, 100000, 2, true⟩,
      ⟨100001, 199999, 2, false⟩, ⟨200000, 200000, 2, true⟩] : List RecordingSegment).filter
      (fun s => decide (s.start_time ≤ 50000) && decide ((50000 : Int) ≤ s.end_time)) = [] :=
  ⟨rfl, rfl⟩

/-- Counterexample to C2 as stated: two windows whose active segments abut
produce adjacent segments sharing the boundary instant 10000, which is neither
`global_start = 0` nor `global_end = 20000`. -/
theorem c2_counterexample :
    (get_metadata_from_events_summary c2CexInput).map
      (fun md => (md.segments, md.start_time, md.end_time)) =
      some ([⟨0, 10000, 1, true⟩, ⟨10000, 20000, 2, true⟩], 0, 20000) ∧
    (10000 : Int) ≠ 0 ∧ (10000 : Int) ≠ 20000 :=
  ⟨rfl, by decide, by decide⟩

/-- Counterexample to C3 as stated: gap-filling `[0, 100)` over windows
1 ↦ [0,50], 2 ↦ [40,100] emits two abutting segments, and the source also
pushes the *second* segment's start forward one millisecond (51, not 50),
an adjustment claim C3 says never happens. -/
theorem c3_counterexample :
    generate_inactive_segments_for_range 0 100 1 c3CexBounds false false =
      [⟨1, 50, 1, false⟩, ⟨51, 99, 2, false⟩] ∧
    claimedGenerateC3 0 100 1 c3CexBounds false false =
      [⟨1, 50, 1, false⟩, ⟨50, 99, 2, false⟩] ∧
    ([⟨1, 50, 1, false⟩, ⟨51, 99, 2, false⟩] : List RecordingSegment) ≠
      [⟨1, 50, 1, false⟩, ⟨50, 99, 2, false⟩] :=
  ⟨rfl, rfl, by decide⟩

/-- Counterexample to C8 as stated: the source keeps the top-level entry whose
key is literally `payload.href` (it filters top-level keys against the *full*
inclusion list, not the seven-key set the claim names), and an event whose
`data.payload` is an *empty* mapping gets no nested `payload` entry from the
source (empty dicts are falsy) while claim C8 requires one. -/
theorem c8_counterexample :
    get_events_summary_from_snapshot_data [c8CexEvent] =
      [⟨0, 3, [("payload.href", Value.str "x")]⟩] ∧
    claimedSummarizeC8 [c8CexEvent] = [⟨0, 3, [("payload", Value.dict [])]⟩] ∧
    (([("payload.href", Value.str "x")] : List (String × Value)) ≠
      [("payload", Value.dict [])]) :=
  ⟨rfl, rfl, fun h => absurd (congrArg (List.map (fun p => Prod.fst p)) h) (by decide)⟩

/-- The boundary-repair loop of the source equals the amended-claim repair:
first segment bumped forward 1 ms when its start is `range_start` and the call
is not at the global recording start, each later segment bumped forward 1 ms
when its start equals the previous segment's pre-repair end, last segment's
end bumped backward 1 ms when it is `range_end` and the call is not at the
global recording end. -/
theorem adjustInactive_eq_amended (rs re : Int) (fi la : Bool) :
    ∀ (l : List RecordingSegment) (po : Option Int),
      adjustInactive rs re fi la po l = amendedAdjustC3 rs re fi la po l := by
  intro l
  induction l with
  | nil => intro po; rfl
  | cons seg rest ih =>
    intro po
    cases rest with
    | nil =>
      show adjustInactive rs re fi la po [seg] =
        mapLast (endBumpC3 re la) [startBumpC3 rs fi (seg, po)]
      cases po with
      | none =>
        simp only [adjustInactive, startBumpC3, endBumpC3, mapLast, List.isEmpty_nil,
          Bool.true_and]
        by_cases h1 : (seg.start_time == rs && !fi) = true <;>
          by_cases h2 : (seg.end_time == re && !la) = true <;>
            simp [h1, h2]
      | some pe =>
        simp only [adjustInactive, startBumpC3, endBumpC3, mapLast, List.isEmpty_nil,
          Bool.true_and]
        by_cases h1 : (seg.start_time == pe) = true <;>
          by_cases h2 : (seg.end_time == re && !la) = true <;>
            simp [h1, h2]
    | cons r2 rest2 =>
      have htail := ih (some seg.end_time)
      show adjustInactive rs re fi la po (seg :: r2 :: rest2) =
        mapLast (endBumpC3 re la)
          (startBumpC3 rs fi (seg, po) ::
            ((r2 :: rest2).zip (some seg.end_time :: (r2 :: rest2).map (fun s => some s.end_time))).map
              (startBumpC3 rs fi))
      rw [show mapLast (endBumpC3 re la)
          (startBumpC3 rs fi (seg, po) ::
            ((r2 :: rest2).zip (some seg.end_time :: (r2 :: rest2).map (fun s => some s.end_time))).map
              (startBumpC3 rs fi)) =
          startBumpC3 rs fi (seg, po) ::
            amendedAdjustC3 rs re fi la (some seg.end_time) (r2 :: rest2) from rfl]
      rw [← htail]
      show (⟨_, _, seg.window_id, seg.is_active⟩ :: adjustInactive rs re fi la (some seg.end_time) (r2 :: rest2)) =
        startBumpC3 rs fi (seg, po) :: adjustInactive rs re fi la (some seg.end_time) (r2 :: rest2)
      refine congrArg (· :: _) ?_
      cases po with
      | none =>
        simp only [startBumpC3]
        by_cases h1 : (seg.start_time == rs && !fi) = true <;> simp [h1]
      | some pe =>
        simp only [startBumpC3]
        by_cases h1 : (seg.start_time == pe) = true <;> simp [h1]

/-- C3 (amended): `generate_inactive_segments_for_range` is exactly the
claimed priority-list walk followed by the amended boundary repair (which,
beyond the first segment's start and last segment's end, also pushes forward
any later segment whose start equals the previous segment's pre-repair
end). -/
theorem c3_amended_generate :
    ∀ (rs re : Int) (wid : Nat) (bounds : List (Nat × RecordingSegment)) (fi la : Bool),
      generate_inactive_segments_for_range rs re wid bounds fi la =
        amendedGenerateC3 rs re wid bounds fi la := by
  intro rs re wid bounds fi la
  unfold generate_inactive_segments_for_range amendedGenerateC3
  exact adjustInactive_eq_amended rs re fi la _ none

/-- The source's per-`data` projection agrees with the amended claim C8
projection (payload entry exactly when `data.payload` is a non-empty
mapping). -/
theorem projectData_eq_amended : ∀ d, projectData d = amendedProjectDataC8 d := by
  intro d
  unfold projectData amendedProjectDataC8
  cases hp : lookupKey d "payload" with
  | none => rfl
  | some pv =>
    cases pv with
    | str s => by_cases h : (s == "") = true <;> simp [truthy, h]
    | int n => by_cases h : (n == 0) = true <;> simp [truthy, h]
    | bool b => cases b <;> simp [truthy]
    | null => rfl
    | dict pl =>
      cases pl with
      | nil => rfl
      | cons q qs => simp [truthy]

/-- C8 (amended): `get_events_summary_from_snapshot_data` returns exactly the
timestamp-sorted list of summaries of the inputs that carry both a `timestamp`
and a `type` key, with each summary's `data` retaining exactly the string/int
top-level entries with keys in the inclusion set plus, when `data.payload` is
a *non-empty* mapping, a nested `payload` entry retaining exactly its
string/int entries whose `payload.`-prefixed key is in the inclusion set. -/
theorem c8_amended_projection :
    (∀ l, get_events_summary_from_snapshot_data l = amendedSummarizeC8 l) ∧
    (∀ l, List.Pairwise (fun a b => a.timestamp ≤ b.timestamp)
      (get_events_summary_from_snapshot_data l)) := by
  constructor
  · intro l
    unfold get_events_summary_from_snapshot_data amendedSummarizeC8
    congr 1
    refine List.filterMap_congr ?_
    intro e _
    unfold summarizeEvent
    cases e.timestamp with
    | none => rfl
    | some ts =>
      cases e.type with
      | none => rfl
      | some ty => simp [projectData_eq_amended]
  · intro l
    exact List.sorted_insertionSort _ _

/-- For a sorted timestamp list and a non-negative threshold, the source loop
followed by its guarded final flush equals the unconditional-flush walk of
claim C4: the guard `...[-1] != current_active_segment` can only be false when
the last closed segment ends at least a threshold before the open segment
starts, which contradicts their being equal. -/
theorem activeSegLoop_flush_eq_walk (wid : Nat) (thrMs : Int) (h0 : 0 ≤ thrMs) :
    ∀ (ts : List Int) (c : RecordingSegment) (acc : List RecordingSegment),
      List.Pairwise (fun a b => a ≤ b) ts →
      (∀ t ∈ ts, c.end_time ≤ t) →
      c.start_time ≤ c.end_time →
      (acc.getLast? = none ∨
        ∃ l, acc.getLast? = some l ∧ l.start_time ≤ l.end_time ∧
          l.end_time + thrMs < c.start_time) →
      flushResult (activeSegLoop wid thrMs ts acc (some c)) =
        acc ++ classifyWalkC4 wid thrMs c ts := by
  intro ts
  induction ts with
  | nil =>
    intro c acc _ _ hse hacc
    show flushResult (acc, some c) = acc ++ [c]
    have hne : acc.getLast? ≠ some c := by
      rcases hacc with h | ⟨l, hl, hse', hlt⟩
      · simp [h]
      · rw [hl]
        intro hc
        have : l = c := Option.some.inj hc
        subst this
        omega
    show (if acc = [] ∨ acc.getLast? ≠ some c then acc ++ [c] else acc) = acc ++ [c]
    rw [if_pos (Or.inr hne)]
  | cons t ts' ih =>
    intro c acc hp hts hse hacc
    have hct : c.end_time ≤ t := hts t (List.mem_cons_self t ts')
    by_cases hm : t - c.end_time ≤ thrMs
    · rw [show activeSegLoop wid thrMs (t :: ts') acc (some c) =
        activeSegLoop wid thrMs ts' acc (some { c with end_time := t }) from by
          simp [activeSegLoop, hm]]
      rw [show classifyWalkC4 wid thrMs c (t :: ts') =
        classifyWalkC4 wid thrMs { c with end_time := t } ts' from by
          simp [classifyWalkC4, hm]]
      refine ih { c with end_time := t } acc (List.pairwise_cons.mp hp).2 ?_ ?_ ?_
      · intro u hu
        exact (List.pairwise_cons.mp hp).1 u hu
      · exact le_trans hse hct
      · exact hacc
    · rw [show activeSegLoop wid thrMs (t :: ts') acc (some c) =
        activeSegLoop wid thrMs ts' (acc ++ [c]) (some ⟨t, t, wid, true⟩) from by
          simp [activeSegLoop, hm]]
      rw [show classifyWalkC4 wid thrMs c (t :: ts') =
        c :: classifyWalkC4 wid thrMs ⟨t, t, wid, true⟩ ts' from by
          simp [classifyWalkC4, hm]]
      rw [show acc ++ c :: classifyWalkC4 wid thrMs ⟨t, t, wid, true⟩ ts' =
        (acc ++ [c]) ++ classifyWalkC4 wid thrMs ⟨t, t, wid, true⟩ ts' from by
          simp]
      refine ih ⟨t, t, wid, true⟩ (acc ++ [c]) (List.pairwise_cons.mp hp).2 ?_ le_rfl ?_
      · intro u hu
        exact (List.pairwise_cons.mp hp).1 u hu
      · refine Or.inr ⟨c, ?_, hse, by show c.end_time + thrMs < t; omega⟩
        rw [List.getLast?_concat]

/-- Invariants of the classifier walk on a sorted timestamp list with a
non-negative threshold: every produced segment is well-formed and active, the
list is chained with gaps strictly larger than the threshold (hence strictly
ascending starts), and the first segment starts where the open segment
does. -/
theorem classifyWalk_invariants (wid : Nat) (thrMs : Int) (h0 : 0 ≤ thrMs) :
    ∀ (ts : List Int) (c : RecordingSegment),
      List.Pairwise (fun a b => a ≤ b) ts →
      (∀ t ∈ ts, c.end_time ≤ t) →
      c.start_time ≤ c.end_time → c.is_active = true →
      (∀ s ∈ classifyWalkC4 wid thrMs c ts, s.start_time ≤ s.end_time ∧ s.is_active = true) ∧
      List.Chain' (fun a b => a.end_time + thrMs < b.start_time ∧ a.start_time < b.start_time)
        (classifyWalkC4 wid thrMs c ts) ∧
      (∃ hd, (classifyWalkC4 wid thrMs c ts).head? = some hd ∧
        hd.start_time = c.start_time) := by
  intro ts
  induction ts with
  | nil =>
    intro c _ _ hse hact
    refine ⟨?_, List.chain'_singleton c, ⟨c, rfl, rfl⟩⟩
    intro s hs
    have hs' : s ∈ [c] := hs
    rw [List.mem_singleton] at hs'
    subst hs'
    exact ⟨hse, hact⟩
  | cons t ts' ih =>
    intro c hp hts hse hact
    have hct : c.end_time ≤ t := hts t (List.mem_cons_self t ts')
    by_cases hm : t - c.end_time ≤ thrMs
    · rw [show classifyWalkC4 wid thrMs c (t :: ts') =
        classifyWalkC4 wid thrMs { c with end_time := t } ts' from by
          simp [classifyWalkC4, hm]]
      exact ih { c with end_time := t } (List.pairwise_cons.mp hp).2
        (fun u hu => (List.pairwise_cons.mp hp).1 u hu) (le_trans hse hct) hact
    · rw [show classifyWalkC4 wid thrMs c (t :: ts') =
        c :: classifyWalkC4 wid thrMs ⟨t, t, wid, true⟩ ts' from by
          simp [classifyWalkC4, hm]]
      obtain ⟨hall, hchain, hd, hhd, hstart⟩ := ih ⟨t, t, wid, true⟩
        (List.pairwise_cons.mp hp).2 (fun u hu => (List.pairwise_cons.mp hp).1 u hu) le_rfl rfl
      refine ⟨?_, ?_, ⟨c, rfl, rfl⟩⟩
      · intro s hs
        rcases List.mem_cons.mp hs with h | h
        · subst h; exact ⟨hse, hact⟩
        · exact hall s h
      · rw [List.chain'_cons']
        refine ⟨?_, hchain⟩
        intro y hy
        rw [hhd, Option.mem_def] at hy
        have hyd : hd = y := Option.some.inj hy
        subst hyd
        have hst : hd.start_time = t := hstart
        rw [hst]
        constructor <;> omega

/-- For a timestamp-sorted event list and non-negative threshold, the source
classifier equals the claimed walk. -/
theorem get_active_eq_claimed :
    ∀ (events : List EventSummary) (wid : Nat) (thr : Int), 0 ≤ thr →
      List.Pairwise (fun a b => a.timestamp ≤ b.timestamp) events →
      get_active_segments_from_event_list events wid thr =
        claimedClassifyC4 events wid thr := by
  intro events wid thr h0 hp
  have hpfil : (events.filter is_active_event).Pairwise (fun a b => a.timestamp ≤ b.timestamp) :=
    List.Pairwise.sublist (List.filter_sublist events) hp
  have hp2 : ((events.filter is_active_event).map (fun e => e.timestamp)).Pairwise
      (fun a b => a ≤ b) := List.pairwise_map.mpr hpfil
  have hkey : ∀ (L : List Int), L.Pairwise (fun a b => a ≤ b) →
      flushResult (activeSegLoop wid (thr * 1000) L [] none) =
        (match L with
         | [] => []
         | t :: ts => classifyWalkC4 wid (thr * 1000) ⟨t, t, wid, true⟩ ts) := by
    intro L hL
    cases L with
    | nil => rfl
    | cons t ts =>
      have h := activeSegLoop_flush_eq_walk wid (thr * 1000)
        (mul_nonneg h0 (by norm_num)) ts ⟨t, t, wid, true⟩ []
        (List.pairwise_cons.mp hL).2 (fun u hu => (List.pairwise_cons.mp hL).1 u hu)
        le_rfl (Or.inl rfl)
      simpa using h
  exact hkey _ hp2

/-- C4: on a timestamp-sorted input (and any non-negative threshold, in
particular the default 10 s), `get_active_segments_from_event_list` is the
claimed walk over the active timestamps: extend the open segment when the gap
is at most the threshold, otherwise close it and open a new zero-length one,
flushing the final open segment; zero active events yield `[]` and exactly one
active event yields a single zero-duration segment. -/
theorem c4_classifier_walk :
    (∀ (events : List EventSummary) (wid : Nat) (thr : Int), 0 ≤ thr →
      List.Pairwise (fun a b => a.timestamp ≤ b.timestamp) events →
      get_active_segments_from_event_list events wid thr =
        claimedClassifyC4 events wid thr) ∧
    (∀ (events : List EventSummary) (wid : Nat) (thr : Int),
      events.filter is_active_event = [] →
      get_active_segments_from_event_list events wid thr = []) ∧
    (∀ (events : List EventSummary) (wid : Nat) (thr : Int) (e : EventSummary),
      events.filter is_active_event = [e] →
      get_active_segments_from_event_list events wid thr =
        [⟨e.timestamp, e.timestamp, wid, true⟩]) := by
  refine ⟨get_active_eq_claimed, ?_, ?_⟩
  · intro events wid thr h
    simp [get_active_segments_from_event_list, h, activeSegLoop, flushResult]
  · intro events wid thr e h
    simp [get_active_segments_from_event_list, h, activeSegLoop, flushResult]

/-- Witness for C4 at Scenario A's event list (sorted, default threshold). -/
theorem c4_witness :
    get_active_segments_from_event_list c4WitnessEvents 7 10 =
      claimedClassifyC4 c4WitnessEvents 7 10 :=
  c4_classifier_walk.1 c4WitnessEvents 7 10 (by decide) (by decide)

/-- C10: on a timestamp-sorted input with a non-negative threshold (the
default is 10), every returned segment is well-formed (`start_time ≤
end_time`) and active, and consecutive segments are separated by strictly
more than the threshold with strictly ascending start times. -/
theorem c10_classifier_invariants :
    ∀ (events : List EventSummary) (wid : Nat) (thr : Int), 0 ≤ thr →
      List.Pairwise (fun a b => a.timestamp ≤ b.timestamp) events →
      (∀ s ∈ get_active_segments_from_event_list events wid thr,
        s.start_time ≤ s.end_time ∧ s.is_active = true) ∧
      List.Chain' (fun a b => a.end_time + thr * 1000 < b.start_time ∧
        a.start_time < b.start_time)
        (get_active_segments_from_event_list events wid thr) := by
  intro events wid thr h0 hp
  rw [get_active_eq_claimed events wid thr h0 hp]
  have hpfil : (events.filter is_active_event).Pairwise (fun a b => a.timestamp ≤ b.timestamp) :=
    List.Pairwise.sublist (List.filter_sublist events) hp
  have hp2 : ((events.filter is_active_event).map (fun e => e.timestamp)).Pairwise
      (fun a b => a ≤ b) := List.pairwise_map.mpr hpfil
  unfold claimedClassifyC4
  cases hL : (events.filter is_active_event).map (fun e => e.timestamp) with
  | nil => exact ⟨by simp, List.chain'_nil⟩
  | cons t ts =>
    rw [hL] at hp2
    obtain ⟨hall, hchain, _⟩ := classifyWalk_invariants wid (thr * 1000)
      (mul_nonneg h0 (by norm_num)) ts ⟨t, t, wid, true⟩
      (List.pairwise_cons.mp hp2).2 (fun u hu => (List.pairwise_cons.mp hp2).1 u hu)
      le_rfl rfl
    exact ⟨hall, hchain⟩

/-- Witness for C10 at Scenario A's event list. -/
theorem c10_witness :
    List.Chain' (fun a b => a.end_time + 10 * 1000 < b.start_time ∧
      a.start_time < b.start_time)
      (get_active_segments_from_event_list c4WitnessEvents 7 10) :=
  (c10_classifier_invariants c4WitnessEvents 7 10 (by decide) (by decide)).2

/-- A key present in the bounds dict resolves to some window. -/
theorem lookup_isSome_of_mem_keys (bounds : List (Nat × RecordingSegment)) (id : Nat)
    (h : id ∈ bounds.map (fun p => p.1)) : ∃ b, lookupWindow bounds id = some b := by
  unfold lookupWindow
  rw [List.mem_map] at h
  obtain ⟨p, hp, hid⟩ := h
  have hsome : (bounds.find? (fun q => q.1 == id)).isSome := by
    rw [List.find?_isSome]
    exact ⟨p, hp, by simp [hid]⟩
  obtain ⟨q, hq⟩ := Option.isSome_iff_exists.mp hsome
  exact ⟨q.2, by simp [hq]⟩

/-- With pairwise-distinct keys, looking up a pair's key returns its value. -/
theorem lookup_self_of_nodup (bounds : List (Nat × RecordingSegment))
    (hnd : (bounds.map (fun p => p.1)).Nodup) :
    ∀ p ∈ bounds, lookupWindow bounds p.1 = some p.2 := by
  induction bounds with
  | nil => intro p hp; cases hp
  | cons q rest ih =>
    rw [List.map_cons, List.nodup_cons] at hnd
    intro p hp
    rcases List.mem_cons.mp hp with h | h
    · subst h
      unfold lookupWindow
      rw [show List.find? (fun r => r.1 == p.1) (p :: rest) = some p from
        List.find?_cons_of_pos _ (by simp)]
      rfl
    · have hne : ¬(q.1 == p.1) = true := by
        simp only [beq_iff_eq]
        intro he
        exact hnd.1 (he ▸ List.mem_map_of_mem (fun r => r.1) h)
      unfold lookupWindow
      rw [show List.find? (fun r => r.1 == p.1) (q :: rest) =
        List.find? (fun r => r.1 == p.1) rest from List.find?_cons_of_neg _ hne]
      exact ih hnd.2 p h

/-- The emission loop's unconditional facts. -/
theorem emit_loose (bounds : List (Nat × RecordingSegment)) (re : Int) :
    ∀ (prio : List Nat) (t : Int), EmitLoose re t (emitInactive bounds re prio t) := by
  intro prio
  induction prio with
  | nil => intro t; trivial
  | cons wid rest ih =>
    intro t
    cases hl : lookupWindow bounds wid with
    | none =>
      rw [show emitInactive bounds re (wid :: rest) t = emitInactive bounds re rest t from by
        simp [emitInactive, hl]]
      exact ih t
    | some w =>
      by_cases hc : w.end_time > t ∧ t < re
      · rw [show emitInactive bounds re (wid :: rest) t =
          ⟨max w.start_time t, min w.end_time re, wid, false⟩ ::
            emitInactive bounds re rest (min (min w.end_time re) w.end_time) from by
              simp [emitInactive, hl, hc]]
        refine ⟨le_max_right _ _, lt_min hc.1 hc.2, min_le_right _ _, rfl, ?_⟩
        rw [min_eq_left (min_le_left _ _)]
        exact ih _
      · rw [show emitInactive bounds re (wid :: rest) t = emitInactive bounds re rest t from by
          simp [emitInactive, hl, hc]]
        exact ih t

/-- When the priority list is sorted by window start, every id resolves, and
the windows listed cover `[t, range_end)`, the emission loop tiles the range
exactly. -/
theorem emitChain_sorted (bounds : List (Nat × RecordingSegment)) (re : Int) :
    ∀ (prio : List Nat) (t : Int),
      t ≤ re →
      (∀ id ∈ prio, ∃ b, lookupWindow bounds id = some b) →
      List.Pairwise (fun i j => windowStartOf bounds i ≤ windowStartOf bounds j) prio →
      (∀ u : Int, t ≤ u → u < re →
        ∃ id ∈ prio, ∃ b, lookupWindow bounds id = some b ∧
          b.start_time ≤ u ∧ u < b.end_time) →
      isEmitChain re t (emitInactive bounds re prio t) := by
  intro prio
  induction prio with
  | nil =>
    intro t ht _ _ hcov
    show t = re
    rcases lt_or_eq_of_le ht with h | h
    · obtain ⟨id, hid, _⟩ := hcov t le_rfl h
      cases hid
    · exact h
  | cons wid rest ih =>
    intro t ht hres hsorted hcov
    obtain ⟨b, hb⟩ := hres wid (List.mem_cons_self _ _)
    by_cases hc : b.end_time > t ∧ t < re
    · rw [show emitInactive bounds re (wid :: rest) t =
        ⟨max b.start_time t, min b.end_time re, wid, false⟩ ::
          emitInactive bounds re rest (min (min b.end_time re) b.end_time) from by
            simp [emitInactive, hb, hc]]
      have hbst : b.start_time ≤ t := by
        obtain ⟨id', hid', b', hb', hbs', _⟩ := hcov t le_rfl hc.2
        rcases List.mem_cons.mp hid' with h | h
        · subst h
          rw [hb] at hb'
          obtain rfl := Option.some.inj hb'
          exact hbs'
        · have h1 : windowStartOf bounds wid ≤ windowStartOf bounds id' :=
            (List.pairwise_cons.mp hsorted).1 id' h
          have hw1 : windowStartOf bounds wid = b.start_time := by
            unfold windowStartOf; rw [hb]
          have hw2 : windowStartOf bounds id' = b'.start_time := by
            unfold windowStartOf; rw [hb']
          omega
      rw [max_eq_right hbst, min_eq_left (min_le_left _ _)]
      refine ⟨rfl, lt_min hc.1 hc.2, min_le_right _ _, ?_⟩
      apply ih (min b.end_time re) (min_le_right _ _)
        (fun id h => hres id (List.mem_cons_of_mem _ h)) (List.pairwise_cons.mp hsorted).2
      intro u hu1 hu2
      have htu : t ≤ u := le_trans (le_of_lt (lt_min hc.1 hc.2)) hu1
      obtain ⟨id', hid', b', hb', hbs', hbe'⟩ := hcov u htu hu2
      rcases List.mem_cons.mp hid' with h | h
      · subst h
        rw [hb] at hb'
        obtain rfl := Option.some.inj hb'
        exfalso
        rcases min_cases b.end_time re with ⟨heq, _⟩ | ⟨heq, _⟩ <;> omega
      · exact ⟨id', h, b', hb', hbs', hbe'⟩
    · rw [show emitInactive bounds re (wid :: rest) t = emitInactive bounds re rest t from by
        simp [emitInactive, hb, hc]]
      apply ih t ht (fun id h => hres id (List.mem_cons_of_mem _ h))
        (List.pairwise_cons.mp hsorted).2
      intro u hu1 hu2
      obtain ⟨id', hid', b', hb', hbs', hbe'⟩ := hcov u hu1 hu2
      rcases List.mem_cons.mp hid' with h | h
      · subst h
        rw [hb] at hb'
        obtain rfl := Option.some.inj hb'
        exfalso
        rcases not_and_or.mp hc with h1 | h1 <;> omega
      · exact ⟨id', h, b', hb', hbs', hbe'⟩

/-- The full priority walk of `generate_inactive_segments_for_range` (preferred
window first, then all windows sorted by start) tiles `[range_start,
range_end)` exactly, provided keys are distinct, the preferred window resolves
and starts at or before `range_start`, and the window bounds pointwise cover
the range. -/
theorem emitChain_priority (bounds : List (Nat × RecordingSegment)) (re : Int)
    (hnd : (bounds.map (fun p => p.1)).Nodup) :
    ∀ (t : Int) (pref : Nat) (bp : RecordingSegment),
      t ≤ re →
      lookupWindow bounds pref = some bp → bp.start_time ≤ t →
      (∀ u : Int, t ≤ u → u < re →
        ∃ p ∈ bounds, p.2.start_time ≤ u ∧ u < p.2.end_time) →
      isEmitChain re t (emitInactive bounds re
        (pref :: (sortBoundsByStart bounds).map (fun p => p.1)) t) := by
  intro t pref bp ht hbp hbps hcov
  have hperm : (sortBoundsByStart bounds).Perm bounds := List.perm_insertionSort _ _
  have hlookup_pairs : ∀ p ∈ sortBoundsByStart bounds, lookupWindow bounds p.1 = some p.2 :=
    fun p hp => lookup_self_of_nodup bounds hnd p (hperm.subset hp)
  have hres : ∀ id ∈ (sortBoundsByStart bounds).map (fun p => p.1),
      ∃ b, lookupWindow bounds id = some b := by
    intro id hid
    apply lookup_isSome_of_mem_keys
    rw [List.mem_map] at hid ⊢
    obtain ⟨p, hp, h⟩ := hid
    exact ⟨p, hperm.subset hp, h⟩
  have hsorted : List.Pairwise (fun i j => windowStartOf bounds i ≤ windowStartOf bounds j)
      ((sortBoundsByStart bounds).map (fun p => p.1)) := by
    rw [List.pairwise_map]
    refine List.Pairwise.imp_of_mem ?_ (List.sorted_insertionSort _ bounds)
    intro a c ha hc hab
    have h1 : windowStartOf bounds a.1 = a.2.start_time := by
      unfold windowStartOf; rw [hlookup_pairs a ha]
    have h2 : windowStartOf bounds c.1 = c.2.start_time := by
      unfold windowStartOf; rw [hlookup_pairs c hc]
    omega
  have hcov' : ∀ u : Int, t ≤ u → u < re →
      ∃ id ∈ (sortBoundsByStart bounds).map (fun p => p.1),
        ∃ b, lookupWindow bounds id = some b ∧ b.start_time ≤ u ∧ u < b.end_time := by
    intro u h1 h2
    obtain ⟨p, hp, hps, hpe⟩ := hcov u h1 h2
    have hpmem : p ∈ sortBoundsByStart bounds := hperm.mem_iff.mpr hp
    exact ⟨p.1, List.mem_map_of_mem _ hpmem, p.2, hlookup_pairs p hpmem, hps, hpe⟩
  by_cases hc : bp.end_time > t ∧ t < re
  · rw [show emitInactive bounds re
        (pref :: (sortBoundsByStart bounds).map (fun p => p.1)) t =
      ⟨max bp.start_time t, min bp.end_time re, pref, false⟩ ::
        emitInactive bounds re ((sortBoundsByStart bounds).map (fun p => p.1))
          (min (min bp.end_time re) bp.end_time) from by
            simp [emitInactive, hbp, hc]]
    rw [max_eq_right hbps, min_eq_left (min_le_left _ _)]
    refine ⟨rfl, lt_min hc.1 hc.2, min_le_right _ _, ?_⟩
    apply emitChain_sorted bounds re _ _ (min_le_right _ _) hres hsorted
    intro u h1 h2
    exact hcov' u (le_trans (le_of_lt (lt_min hc.1 hc.2)) h1) h2
  · rw [show emitInactive bounds re
        (pref :: (sortBoundsByStart bounds).map (fun p => p.1)) t =
      emitInactive bounds re ((sortBoundsByStart bounds).map (fun p => p.1)) t from by
        simp [emitInactive, hbp, hc]]
    exact emitChain_sorted bounds re _ t ht hres hsorted hcov'

/-- `getLast?` skips the head when the tail is non-empty. -/
theorem getLast?_cons_of_ne {α : Type} (x : α) (l : List α) (h : l ≠ []) :
    (x :: l).getLast? = l.getLast? := by
  cases l with
  | nil => exact absurd rfl h
  | cons a l' => rw [List.getLast?_cons_cons]

/-- One-step unfolding of the repair loop. -/
theorem adjustInactive_cons (rs re : Int) (fi la : Bool) (po : Option Int)
    (seg : RecordingSegment) (rest : List RecordingSegment) :
    adjustInactive rs re fi la po (seg :: rest) =
      ⟨if (match po with
           | none => seg.start_time == rs && !fi
           | some pe => seg.start_time == pe) then seg.start_time + 1 else seg.start_time,
       if rest.isEmpty && seg.end_time == re && !la then seg.end_time - 1 else seg.end_time,
       seg.window_id, seg.is_active⟩ ::
        adjustInactive rs re fi la (some seg.end_time) rest := rfl

/-- Repairing an exact chain whose previous (pre-repair) end is the chain
start covers every millisecond instant from one past the chain start through
`range_end` (minus one when the call is not at the recording end). -/
theorem adjust_cover_tail (rs re : Int) (fi la : Bool) :
    ∀ (raw : List RecordingSegment) (t : Int),
      isEmitChain re t raw →
      ∀ u : Int, t + 1 ≤ u → u ≤ re → (la = false → u ≤ re - 1) →
        ∃ s ∈ adjustInactive rs re fi la (some t) raw,
          s.start_time ≤ u ∧ u ≤ s.end_time := by
  intro raw
  induction raw with
  | nil =>
    intro t hch u h1 h2 h3
    have ht : t = re := hch
    exfalso
    cases la with
    | true => omega
    | false => have := h3 rfl; omega
  | cons s rest ih =>
    intro t hch u h1 h2 h3
    obtain ⟨hst, hlt, hle, hch'⟩ := hch
    rw [adjustInactive_cons]
    by_cases hrest : rest = []
    · subst hrest
      have hend : s.end_time = re := hch'
      refine ⟨_, List.mem_cons_self _ _, ?_, ?_⟩
      · show (if (s.start_time == t) then s.start_time + 1 else s.start_time) ≤ u
        rw [if_pos (by simp [hst])]
        omega
      · show u ≤ (if List.isEmpty [] && s.end_time == re && !la then s.end_time - 1
          else s.end_time)
        cases la with
        | true => rw [if_neg (by simp)]; omega
        | false =>
          rw [if_pos (by simp [hend])]
          have := h3 rfl
          omega
    · have hne : rest.isEmpty = false := by
        cases rest with
        | nil => exact absurd rfl hrest
        | cons a l => rfl
      by_cases hu : u ≤ s.end_time
      · refine ⟨_, List.mem_cons_self _ _, ?_, ?_⟩
        · show (if (s.start_time == t) then s.start_time + 1 else s.start_time) ≤ u
          rw [if_pos (by simp [hst])]
          omega
        · show u ≤ (if rest.isEmpty && s.end_time == re && !la then s.end_time - 1
            else s.end_time)
          rw [if_neg (by simp [hne])]
          exact hu
      · obtain ⟨s', hm, hc1, hc2⟩ := ih s.end_time hch' u (by omega) h2 h3
        exact ⟨s', List.mem_cons_of_mem _ hm, hc1, hc2⟩

/-- Repairing an exact chain from `range_start` covers every millisecond
instant of `[range_start, range_end]`, except `range_start` itself when the
call is not at the recording start and `range_end` itself when it is not at
the recording end. -/
theorem adjust_cover_top (rs re : Int) (fi la : Bool) :
    ∀ (raw : List RecordingSegment),
      isEmitChain re rs raw → rs < re →
      ∀ u : Int, (fi = true → rs ≤ u) → (fi = false → rs + 1 ≤ u) →
        u ≤ re → (la = false → u ≤ re - 1) →
        ∃ s ∈ adjustInactive rs re fi la none raw,
          s.start_time ≤ u ∧ u ≤ s.end_time := by
  intro raw hch hlt u h1 h2 h3 h4
  cases raw with
  | nil =>
    have : rs = re := hch
    omega
  | cons s rest =>
    obtain ⟨hst, hslt, hsle, hch'⟩ := hch
    rw [adjustInactive_cons]
    have hstart_le : (if (s.start_time == rs && !fi) then s.start_time + 1
        else s.start_time) ≤ u := by
      cases fi with
      | true =>
        rw [if_neg (by simp)]
        have := h1 rfl
        omega
      | false =>
        rw [if_pos (by simp [hst])]
        have := h2 rfl
        omega
    by_cases hrest : rest = []
    · subst hrest
      have hend : s.end_time = re := hch'
      refine ⟨_, List.mem_cons_self _ _, hstart_le, ?_⟩
      show u ≤ (if List.isEmpty [] && s.end_time == re && !la then s.end_time - 1
        else s.end_time)
      cases la with
      | true => rw [if_neg (by simp)]; omega
      | false =>
        rw [if_pos (by simp [hend])]
        have := h4 rfl
        omega
    · have hne : rest.isEmpty = false := by
        cases rest with
        | nil => exact absurd rfl hrest
        | cons a l => rfl
      by_cases hu : u ≤ s.end_time
      · refine ⟨_, List.mem_cons_self _ _, hstart_le, ?_⟩
        show u ≤ (if rest.isEmpty && s.end_time == re && !la then s.end_time - 1
          else s.end_time)
        rw [if_neg (by simp [hne])]
        exact hu
      · obtain ⟨s', hm, hc1, hc2⟩ := adjust_cover_tail rs re fi la rest s.end_time hch' u
          (by omega) h3 h4
        exact ⟨s', List.mem_cons_of_mem _ hm, hc1, hc2⟩

/-- Bumping a start forward preserves a lower bound. -/
theorem le_if_bump (rs x : Int) (c : Bool) (h : rs ≤ x) :
    rs ≤ if c then x + 1 else x := by
  cases c <;> simp <;> omega

/-- Bumping an end backward preserves an upper bound. -/
theorem if_drop_le (re x : Int) (c : Bool) (h : x ≤ re) :
    (if c then x - 1 else x) ≤ re := by
  cases c with
  | true => simp; omega
  | false => simpa using h

/-- End-repair facts for the last segment. -/
theorem adjEnd_facts (x re : Int) (la : Bool) (h : x ≤ re) :
    (if (x == re && !la) then x - 1 else x) ≤ re ∧
    (la = false → (if (x == re && !la) then x - 1 else x) < re) := by
  by_cases he : x = re
  · cases la with
    | true => rw [if_neg (by simp)]; exact ⟨h, by simp⟩
    | false => rw [if_pos (by simp [he])]; exact ⟨by omega, fun _ => by omega⟩
  · rw [if_neg (by simp [he])]
    exact ⟨h, fun _ => by omega⟩

/-- Every repaired segment stays within `[range_start, range_end]` (start at
or after `range_start`, end at or before `range_end`). -/
theorem adjust_bounds (rs re : Int) (fi la : Bool) :
    ∀ (raw : List RecordingSegment) (t : Int) (po : Option Int),
      EmitLoose re t raw → rs ≤ t →
      ∀ s ∈ adjustInactive rs re fi la po raw,
        rs ≤ s.start_time ∧ s.end_time ≤ re := by
  intro raw
  induction raw with
  | nil =>
    intro t po _ _ s hs
    exact absurd hs (by simp [adjustInactive])
  | cons a rest ih =>
    intro t po hl hrs s hs
    obtain ⟨h1, h2, h3, _, hl'⟩ := hl
    rw [adjustInactive_cons] at hs
    rcases List.mem_cons.mp hs with h | h
    · subst h
      exact ⟨le_if_bump rs a.start_time _ (by omega), if_drop_le re a.end_time _ h3⟩
    · exact ih a.end_time (some a.end_time) hl' (by omega) s h

/-- The head of a repaired run starts strictly after any `pe ≤ cursor`. -/
theorem adjust_headGT (rs re : Int) (fi la : Bool) :
    ∀ (raw : List RecordingSegment) (t pe : Int),
      EmitLoose re t raw → pe ≤ t →
      ∀ y ∈ (adjustInactive rs re fi la (some pe) raw).head?, pe < y.start_time := by
  intro raw t pe hl hpe y hy
  cases raw with
  | nil => simp [adjustInactive] at hy
  | cons a rest =>
    obtain ⟨h1, _, _, _, _⟩ := hl
    rw [adjustInactive_cons, List.head?_cons, Option.mem_def] at hy
    obtain rfl := (Option.some.inj hy)
    show pe < (if (a.start_time == pe) then a.start_time + 1 else a.start_time)
    by_cases hb : a.start_time = pe
    · rw [if_pos (by simp [hb])]
      omega
    · rw [if_neg (by simp [hb])]
      omega

/-- Adjacent repaired segments never abut: each ends strictly before the next
starts. -/
theorem adjust_chain_lt (rs re : Int) (fi la : Bool) :
    ∀ (raw : List RecordingSegment) (t : Int) (po : Option Int),
      EmitLoose re t raw →
      List.Chain' (fun a b => a.end_time < b.start_time)
        (adjustInactive rs re fi la po raw) := by
  intro raw
  induction raw with
  | nil => intro t po _; simp [adjustInactive]
  | cons a rest ih =>
    intro t po hl
    obtain ⟨h1, h2, h3, h4, hl'⟩ := hl
    rw [adjustInactive_cons, List.chain'_cons']
    refine ⟨?_, ih a.end_time (some a.end_time) hl'⟩
    intro y hy
    cases rest with
    | nil => simp [adjustInactive] at hy
    | cons r rest' =>
      have hgt := adjust_headGT rs re fi la (r :: rest') a.end_time a.end_time hl' le_rfl y hy
      show (if (r :: rest').isEmpty && a.end_time == re && !la then a.end_time - 1
        else a.end_time) < y.start_time
      rw [if_neg (by simp)]
      exact hgt

/-- The last repaired segment ends at or before `range_end`, strictly before
when the call is not at the recording end. -/
theorem adjust_last_facts (rs re : Int) (fi la : Bool) :
    ∀ (raw : List RecordingSegment) (t : Int) (po : Option Int),
      EmitLoose re t raw →
      ∀ lst ∈ (adjustInactive rs re fi la po raw).getLast?,
        lst.end_time ≤ re ∧ (la = false → lst.end_time < re) := by
  intro raw
  induction raw with
  | nil => intro t po _ lst h; simp [adjustInactive] at h
  | cons a rest ih =>
    intro t po hl lst h
    obtain ⟨h1, h2, h3, _, hl'⟩ := hl
    rw [adjustInactive_cons] at h
    cases rest with
    | nil =>
      rw [show adjustInactive rs re fi la (some a.end_time) [] = [] from rfl,
        List.getLast?_singleton, Option.mem_def] at h
      obtain rfl := Option.some.inj h
      exact adjEnd_facts a.end_time re la h3
    | cons r rest' =>
      have hnil : adjustInactive rs re fi la (some a.end_time) (r :: rest') ≠ [] := by
        rw [adjustInactive_cons]
        exact List.cons_ne_nil _ _
      rw [getLast?_cons_of_ne _ _ hnil] at h
      exact ih a.end_time (some a.end_time) hl' lst h

/-- Every repaired segment is inactive. -/
theorem adjust_all_inactive (rs re : Int) (fi la : Bool) :
    ∀ (raw : List RecordingSegment) (t : Int) (po : Option Int),
      EmitLoose re t raw →
      ∀ s ∈ adjustInactive rs re fi la po raw, s.is_active = false := by
  intro raw
  induction raw with
  | nil => intro t po _ s hs; exact absurd hs (by simp [adjustInactive])
  | cons a rest ih =>
    intro t po hl s hs
    obtain ⟨h1, h2, h3, h4, hl'⟩ := hl
    rw [adjustInactive_cons] at hs
    rcases List.mem_cons.mp hs with h | h
    · subst h; exact h4
    · exact ih a.end_time (some a.end_time) hl' s h

/-- The first repaired segment of a run from `range_start` starts at or after
`range_start`, exactly at it only when the call is at the recording start. -/
theorem adjust_head_facts (rs re : Int) (fi la : Bool) :
    ∀ (raw : List RecordingSegment),
      EmitLoose re rs raw →
      ∀ hd ∈ (adjustInactive rs re fi la none raw).head?,
        rs ≤ hd.start_time ∧ (hd.start_time = rs → fi = true) := by
  intro raw hl hd hhd
  cases raw with
  | nil => simp [adjustInactive] at hhd
  | cons a rest =>
    obtain ⟨h1, _, _, _, _⟩ := hl
    rw [adjustInactive_cons, List.head?_cons, Option.mem_def] at hhd
    obtain rfl := Option.some.inj hhd
    show rs ≤ (if (a.start_time == rs && !fi) then a.start_time + 1 else a.start_time) ∧
      ((if (a.start_time == rs && !fi) then a.start_time + 1 else a.start_time) = rs →
        fi = true)
    by_cases hb : a.start_time = rs
    · cases fi with
      | true => rw [if_neg (by simp)]; exact ⟨by omega, fun _ => rfl⟩
      | false => rw [if_pos (by simp [hb])]; exact ⟨by omega, fun h => by omega⟩
    · rw [if_neg (by simp [hb])]
      exact ⟨h1, fun h => absurd h hb⟩

/-- A non-empty list's `getLast?` is one of its members. -/
theorem getLast?_mem_self {α : Type} : ∀ (l : List α), l ≠ [] →
    ∃ x, l.getLast? = some x ∧ x ∈ l := by
  intro l
  induction l with
  | nil => intro h; exact absurd rfl h
  | cons a rest ih =>
    intro _
    cases rest with
    | nil => exact ⟨a, rfl, List.mem_singleton.mpr rfl⟩
    | cons b rest' =>
      obtain ⟨x, hx, hm⟩ := ih (List.cons_ne_nil _ _)
      exact ⟨x, by rw [List.getLast?_cons_cons]; exact hx, List.mem_cons_of_mem _ hm⟩

/-- In a timestamp-sorted list, the head's timestamp bounds every member's. -/
theorem head_ts_le (events : List EventSummary)
    (hp : List.Pairwise (fun a b => a.timestamp ≤ b.timestamp) events) :
    ∀ e ∈ events, ((events.head?.map (fun x => x.timestamp)).getD 0) ≤ e.timestamp := by
  intro e he
  cases events with
  | nil => cases he
  | cons h rest =>
    rcases List.mem_cons.mp he with heq | hm
    · subst heq; exact le_rfl
    · exact (List.pairwise_cons.mp hp).1 e hm

/-- In a timestamp-sorted list, the last element's timestamp bounds every
member's. -/
theorem ts_le_last (events : List EventSummary)
    (hp : List.Pairwise (fun a b => a.timestamp ≤ b.timestamp) events) :
    ∀ e ∈ events, e.timestamp ≤ ((events.getLast?.map (fun x => x.timestamp)).getD 0) := by
  induction events with
  | nil => intro e he; cases he
  | cons h rest ih =>
    intro e he
    cases hrest : rest with
    | nil =>
      subst hrest
      rcases List.mem_cons.mp he with heq | hm
      · subst heq; exact le_rfl
      · cases hm
    | cons b rest' =>
      subst hrest
      rw [show (h :: b :: rest').getLast? = (b :: rest').getLast? from
        List.getLast?_cons_cons]
      rcases List.mem_cons.mp he with heq | hm
      · subst heq
        obtain ⟨x, hx, hxm⟩ := getLast?_mem_self (b :: rest') (List.cons_ne_nil _ _)
        rw [hx]
        exact (List.pairwise_cons.mp hp).1 x hxm
      · exact ih (List.pairwise_cons.mp hp).2 e hm

/-- Members of the claimed classifier walk lie within the given bounds, are
well-formed, active, and carry the window id. -/
theorem classifyWalk_members (wid : Nat) (thrMs : Int) :
    ∀ (ts : List Int) (c : RecordingSegment) (lo hi : Int),
      List.Pairwise (fun a b => a ≤ b) ts →
      (∀ t ∈ ts, c.end_time ≤ t ∧ lo ≤ t ∧ t ≤ hi) →
      lo ≤ c.start_time → c.start_time ≤ c.end_time → c.end_time ≤ hi →
      c.is_active = true → c.window_id = wid →
      ∀ s ∈ classifyWalkC4 wid thrMs c ts,
        lo ≤ s.start_time ∧ s.start_time ≤ s.end_time ∧ s.end_time ≤ hi ∧
        s.is_active = true ∧ s.window_id = wid := by
  intro ts
  induction ts with
  | nil =>
    intro c lo hi _ _ h1 h2 h3 h4 h5 s hs
    have hs' : s ∈ [c] := hs
    rw [List.mem_singleton] at hs'
    subst hs'
    exact ⟨h1, h2, h3, h4, h5⟩
  | cons t ts' ih =>
    intro c lo hi hp hts h1 h2 h3 h4 h5 s hs
    have hc := hts t (List.mem_cons_self _ _)
    by_cases hm : t - c.end_time ≤ thrMs
    · rw [show classifyWalkC4 wid thrMs c (t :: ts') =
        classifyWalkC4 wid thrMs { c with end_time := t } ts' from by
          simp [classifyWalkC4, hm]] at hs
      refine ih { c with end_time := t } lo hi (List.pairwise_cons.mp hp).2 ?_ h1
        (le_trans h2 hc.1) hc.2.2 h4 h5 s hs
      intro u hu
      exact ⟨(List.pairwise_cons.mp hp).1 u hu, (hts u (List.mem_cons_of_mem _ hu)).2⟩
    · rw [show classifyWalkC4 wid thrMs c (t :: ts') =
        c :: classifyWalkC4 wid thrMs ⟨t, t, wid, true⟩ ts' from by
          simp [classifyWalkC4, hm]] at hs
      rcases List.mem_cons.mp hs with h | h
      · subst h; exact ⟨h1, h2, h3, h4, h5⟩
      · refine ih ⟨t, t, wid, true⟩ lo hi (List.pairwise_cons.mp hp).2 ?_ hc.2.1
          le_rfl hc.2.2 rfl rfl s h
        intro u hu
        exact ⟨(List.pairwise_cons.mp hp).1 u hu, (hts u (List.mem_cons_of_mem _ hu)).2⟩

/-- For a timestamp-sorted event list, every classifier output segment lies
within the window's bounds (first to last timestamp), is well-formed, active,
and carries the window id. -/
theorem get_active_members (events : List EventSummary) (wid : Nat) (thr : Int)
    (h0 : 0 ≤ thr)
    (hp : List.Pairwise (fun a b => a.timestamp ≤ b.timestamp) events) :
    ∀ s ∈ get_active_segments_from_event_list events wid thr,
      (windowBounds wid events).start_time ≤ s.start_time ∧
      s.start_time ≤ s.end_time ∧
      s.end_time ≤ (windowBounds wid events).end_time ∧
      s.is_active = true ∧ s.window_id = wid := by
  rw [get_active_eq_claimed events wid thr h0 hp]
  have hpfil : (events.filter is_active_event).Pairwise (fun a b => a.timestamp ≤ b.timestamp) :=
    List.Pairwise.sublist (List.filter_sublist events) hp
  have hp2 : ((events.filter is_active_event).map (fun e => e.timestamp)).Pairwise
      (fun a b => a ≤ b) := List.pairwise_map.mpr hpfil
  have hmem : ∀ u ∈ (events.filter is_active_event).map (fun e => e.timestamp),
      (windowBounds wid events).start_time ≤ u ∧ u ≤ (windowBounds wid events).end_time := by
    intro u hu
    rw [List.mem_map] at hu
    obtain ⟨e, he, heq⟩ := hu
    have hev : e ∈ events := List.mem_of_mem_filter he
    subst heq
    exact ⟨head_ts_le events hp e hev, ts_le_last events hp e hev⟩
  unfold claimedClassifyC4
  cases hL : (events.filter is_active_event).map (fun e => e.timestamp) with
  | nil => intro s hs; cases hs
  | cons t ts =>
    rw [hL] at hp2 hmem
    have ht := hmem t (List.mem_cons_self _ _)
    intro s hs
    refine classifyWalk_members wid (thr * 1000) ts ⟨t, t, wid, true⟩
      (windowBounds wid events).start_time (windowBounds wid events).end_time
      (List.pairwise_cons.mp hp2).2 ?_ ht.1 le_rfl ht.2 rfl rfl s hs
    intro u hu
    exact ⟨(List.pairwise_cons.mp hp2).1 u hu, (hmem u (List.mem_cons_of_mem _ hu)).1,
      (hmem u (List.mem_cons_of_mem _ hu)).2⟩

/-- Every classifier output segment is active and carries the window id, for
*any* input (no sortedness needed). -/
theorem get_active_all_active (events : List EventSummary) (wid : Nat) (thr : Int) :
    ∀ s ∈ get_active_segments_from_event_list events wid thr,
      s.is_active = true ∧ s.window_id = wid := by
  have hloop : ∀ (L : List Int) (acc : List RecordingSegment) (cur : Option RecordingSegment),
      (∀ s ∈ acc, s.is_active = true ∧ s.window_id = wid) →
      (∀ c, cur = some c → c.is_active = true ∧ c.window_id = wid) →
      ∀ s ∈ flushResult (activeSegLoop wid (thr * 1000) L acc cur),
        s.is_active = true ∧ s.window_id = wid := by
    intro L
    induction L with
    | nil =>
      intro acc cur hacc hcur s hs
      cases cur with
      | none => exact hacc s hs
      | some c =>
        rw [show activeSegLoop wid (thr * 1000) [] acc (some c) = (acc, some c) from
          rfl] at hs
        by_cases hcond : acc = [] ∨ acc.getLast? ≠ some c
        · rw [show flushResult (acc, some c) = acc ++ [c] from by
            show (if acc = [] ∨ acc.getLast? ≠ some c then acc ++ [c] else acc) = acc ++ [c]
            rw [if_pos hcond]] at hs
          rcases List.mem_append.mp hs with h | h
          · exact hacc s h
          · rw [List.mem_singleton] at h; subst h; exact hcur s rfl
        · rw [show flushResult (acc, some c) = acc from by
            show (if acc = [] ∨ acc.getLast? ≠ some c then acc ++ [c] else acc) = acc
            rw [if_neg hcond]] at hs
          exact hacc s hs
    | cons t L' ih =>
      intro acc cur hacc hcur s hs
      cases cur with
      | none =>
        rw [show activeSegLoop wid (thr * 1000) (t :: L') acc none =
          activeSegLoop wid (thr * 1000) L' acc (some ⟨t, t, wid, true⟩) from rfl] at hs
        refine ih acc _ hacc ?_ s hs
        intro c hc
        rw [← Option.some.inj hc]
        exact ⟨rfl, rfl⟩
      | some c =>
        by_cases hm : t - c.end_time ≤ thr * 1000
        · rw [show activeSegLoop wid (thr * 1000) (t :: L') acc (some c) =
            activeSegLoop wid (thr * 1000) L' acc (some { c with end_time := t }) from by
              simp [activeSegLoop, hm]] at hs
          refine ih acc _ hacc ?_ s hs
          intro c' hc'
          rw [← Option.some.inj hc']
          exact hcur c rfl
        · rw [show activeSegLoop wid (thr * 1000) (t :: L') acc (some c) =
            activeSegLoop wid (thr * 1000) L' (acc ++ [c]) (some ⟨t, t, wid, true⟩) from by
              simp [activeSegLoop, hm]] at hs
          refine ih (acc ++ [c]) _ ?_ ?_ s hs
          · intro x hx
            rcases List.mem_append.mp hx with h | h
            · exact hacc x h
            · rw [List.mem_singleton] at h; subst h; exact hcur x rfl
          · intro c' hc'
            rw [← Option.some.inj hc']
            exact ⟨rfl, rfl⟩
  intro s hs
  exact hloop _ [] none (by intro x hx; cases hx) (by intro c hc; cases hc) s hs

/-- A left fold of `min` is below its seed and every list element. -/
theorem foldl_min_le : ∀ (xs : List Int) (x : Int),
    xs.foldl min x ≤ x ∧ ∀ y ∈ xs, xs.foldl min x ≤ y := by
  intro xs
  induction xs with
  | nil => intro x; exact ⟨le_rfl, by intro y hy; cases hy⟩
  | cons a l ih =>
    intro x
    obtain ⟨h1, h2⟩ := ih (min x a)
    refine ⟨le_trans h1 (min_le_left _ _), ?_⟩
    intro y hy
    rcases List.mem_cons.mp hy with h | h
    · subst h; exact le_trans h1 (min_le_right _ _)
    · exact h2 y h

/-- A left fold of `min` is its seed or some list element. -/
theorem foldl_min_attained : ∀ (xs : List Int) (x : Int),
    xs.foldl min x = x ∨ xs.foldl min x ∈ xs := by
  intro xs
  induction xs with
  | nil => intro x; exact Or.inl rfl
  | cons a l ih =>
    intro x
    rw [show (a :: l).foldl min x = l.foldl min (min x a) from rfl]
    rcases ih (min x a) with h | h
    · rcases min_cases x a with ⟨he, _⟩ | ⟨he, _⟩
      · exact Or.inl (by rw [h, he])
      · exact Or.inr (by rw [h, he]; exact List.mem_cons_self _ _)
    · exact Or.inr (List.mem_cons_of_mem _ h)

/-- A left fold of `max` is above its seed and every list element. -/
theorem le_foldl_max : ∀ (xs : List Int) (x : Int),
    x ≤ xs.foldl max x ∧ ∀ y ∈ xs, y ≤ xs.foldl max x := by
  intro xs
  induction xs with
  | nil => intro x; exact ⟨le_rfl, by intro y hy; cases hy⟩
  | cons a l ih =>
    intro x
    obtain ⟨h1, h2⟩ := ih (max x a)
    refine ⟨le_trans (le_max_left _ _) h1, ?_⟩
    intro y hy
    rcases List.mem_cons.mp hy with h | h
    · subst h; exact le_trans (le_max_right _ _) h1
    · exact h2 y h

/-- The recording start is a lower bound for every window's start. -/
theorem first_start_time_le (bounds : List (Nat × RecordingSegment)) :
    ∀ p ∈ bounds, first_start_time bounds ≤ p.2.start_time := by
  intro p hp
  unfold first_start_time
  cases hb : bounds.map (fun q => q.2.start_time) with
  | nil =>
    rw [List.map_eq_nil_iff] at hb
    subst hb
    cases hp
  | cons x xs =>
    have hmem : p.2.start_time ∈ x :: xs := by
      rw [← hb]
      exact List.mem_map_of_mem _ hp
    rcases List.mem_cons.mp hmem with h | h
    · rw [h]; exact (foldl_min_le xs x).1
    · exact (foldl_min_le xs x).2 _ h

/-- The recording start is attained by some window. -/
theorem first_start_time_mem (bounds : List (Nat × RecordingSegment))
    (hne : bounds ≠ []) :
    ∃ p ∈ bounds, p.2.start_time = first_start_time bounds := by
  unfold first_start_time
  cases hb : bounds.map (fun q => q.2.start_time) with
  | nil =>
    rw [List.map_eq_nil_iff] at hb
    exact absurd hb hne
  | cons x xs =>
    rcases foldl_min_attained xs x with hh | hh
    · have hx : x ∈ bounds.map (fun q => q.2.start_time) := by
        rw [hb]; exact List.mem_cons_self _ _
      obtain ⟨p, hp, hpe⟩ := List.mem_map.mp hx
      refine ⟨p, hp, ?_⟩
      show p.2.start_time = xs.foldl min x
      rw [hpe, hh]
    · have hx : xs.foldl min x ∈ bounds.map (fun q => q.2.start_time) := by
        rw [hb]; exact List.mem_cons_of_mem _ hh
      obtain ⟨p, hp, hpe⟩ := List.mem_map.mp hx
      refine ⟨p, hp, ?_⟩
      show p.2.start_time = xs.foldl min x
      exact hpe

/-- The recording end is an upper bound for every window's end. -/
theorem le_last_end_time (bounds : List (Nat × RecordingSegment)) :
    ∀ p ∈ bounds, p.2.end_time ≤ last_end_time bounds := by
  intro p hp
  unfold last_end_time
  cases hb : bounds.map (fun q => q.2.end_time) with
  | nil =>
    rw [List.map_eq_nil_iff] at hb
    subst hb
    cases hp
  | cons x xs =>
    have hmem : p.2.end_time ∈ x :: xs := by
      rw [← hb]
      exact List.mem_map_of_mem _ hp
    rcases List.mem_cons.mp hmem with h | h
    · rw [h]; exact (le_foldl_max xs x).1
    · exact (le_foldl_max xs x).2 _ h

/-- The initial `current_window_id` (earliest-starting window) resolves to a
window starting at or before the recording start. -/
theorem initialWindow_facts (bounds : List (Nat × RecordingSegment))
    (hnd : (bounds.map (fun p => p.1)).Nodup) (hne : bounds ≠ []) :
    ∃ b, lookupWindow bounds (initialWindowId bounds) = some b ∧
      b.start_time ≤ first_start_time bounds := by
  have hperm : (sortBoundsByStart bounds).Perm bounds := List.perm_insertionSort _ _
  cases hs : sortBoundsByStart bounds with
  | nil =>
    exfalso
    apply hne
    rw [hs] at hperm
    exact hperm.symm.eq_nil
  | cons q qs =>
    have hq : initialWindowId bounds = q.1 := by
      unfold initialWindowId
      rw [hs]
      rfl
    have hqb : q ∈ bounds := hperm.subset (hs ▸ List.mem_cons_self q qs)
    refine ⟨q.2, by rw [hq]; exact lookup_self_of_nodup bounds hnd q hqb, ?_⟩
    obtain ⟨p, hp, hpe⟩ := first_start_time_mem bounds hne
    have hpmem : p ∈ q :: qs := hs ▸ hperm.mem_iff.mpr hp
    have hsorted : List.Pairwise (fun a b => a.2.start_time ≤ b.2.start_time) (q :: qs) := by
      rw [← hs]
      exact List.sorted_insertionSort _ bounds
    rcases List.mem_cons.mp hpmem with h | h
    · rw [← hpe, h]
    · rw [← hpe]
      exact (List.pairwise_cons.mp hsorted).1 p h

/-- Coverage of a gap-fill call: when keys are distinct, the preferred window
resolves and starts at or before the range start, and window bounds cover the
range, the produced segments cover every millisecond instant of the range
(minus the first instant when not at the recording start, minus the last when
not at the recording end). -/
theorem generate_cover (bounds : List (Nat × RecordingSegment)) (rs re : Int)
    (pref : Nat) (fi la : Bool)
    (hnd : (bounds.map (fun p => p.1)).Nodup)
    (hlt : rs < re)
    (hpref : ∃ bp, lookupWindow bounds pref = some bp ∧ bp.start_time ≤ rs)
    (hcov : ∀ u : Int, rs ≤ u → u < re →
      ∃ p ∈ bounds, p.2.start_time ≤ u ∧ u < p.2.end_time) :
    ∀ u : Int, (fi = true → rs ≤ u) → (fi = false → rs + 1 ≤ u) → u ≤ re →
      (la = false → u ≤ re - 1) →
      ∃ s ∈ generate_inactive_segments_for_range rs re pref bounds fi la,
        s.start_time ≤ u ∧ u ≤ s.end_time := by
  obtain ⟨bp, hbp, hbps⟩ := hpref
  have hch := emitChain_priority bounds re hnd rs pref bp (le_of_lt hlt) hbp hbps hcov
  intro u h1 h2 h3 h4
  exact adjust_cover_top rs re fi la _ hch hlt u h1 h2 h3 h4

/-- Every gap-fill segment lies within the requested range. -/
theorem generate_bounds (bounds : List (Nat × RecordingSegment)) (rs re : Int)
    (pref : Nat) (fi la : Bool) :
    ∀ s ∈ generate_inactive_segments_for_range rs re pref bounds fi la,
      rs ≤ s.start_time ∧ s.end_time ≤ re :=
  adjust_bounds rs re fi la _ rs none (emit_loose bounds re _ rs) le_rfl

/-- Every gap-fill segment is inactive. -/
theorem generate_all_inactive (bounds : List (Nat × RecordingSegment)) (rs re : Int)
    (pref : Nat) (fi la : Bool) :
    ∀ s ∈ generate_inactive_segments_for_range rs re pref bounds fi la,
      s.is_active = false :=
  adjust_all_inactive rs re fi la _ rs none (emit_loose bounds re _ rs)

/-- Within one gap-fill call, consecutive segments never abut. -/
theorem generate_chain_lt (bounds : List (Nat × RecordingSegment)) (rs re : Int)
    (pref : Nat) (fi la : Bool) :
    List.Chain' (fun a b => a.end_time < b.start_time)
      (generate_inactive_segments_for_range rs re pref bounds fi la) :=
  adjust_chain_lt rs re fi la _ rs none (emit_loose bounds re _ rs)

/-- The first gap-fill segment starts at or after the range start, exactly at
it only when the call is at the recording start. -/
theorem generate_head_facts (bounds : List (Nat × RecordingSegment)) (rs re : Int)
    (pref : Nat) (fi la : Bool) :
    ∀ hd ∈ (generate_inactive_segments_for_range rs re pref bounds fi la).head?,
      rs ≤ hd.start_time ∧ (hd.start_time = rs → fi = true) :=
  adjust_head_facts rs re fi la _ (emit_loose bounds re _ rs)

/-- The last gap-fill segment ends at or before the range end, strictly before
when the call is not at the recording end. -/
theorem generate_last_facts (bounds : List (Nat × RecordingSegment)) (rs re : Int)
    (pref : Nat) (fi la : Bool) :
    ∀ lst ∈ (generate_inactive_segments_for_range rs re pref bounds fi la).getLast?,
      lst.end_time ≤ re ∧ (la = false → lst.end_time < re) :=
  adjust_last_facts rs re fi la _ rs none (emit_loose bounds re _ rs)

/-- One-step unfolding of the active-segment walk of
`get_metadata_from_events_summary`. -/
theorem fillLoop_cons (bounds : List (Nat × RecordingSegment)) (seg : RecordingSegment)
    (rest : List RecordingSegment) (ct : Int) (cw : Nat) (fi : Bool) :
    fillLoop bounds (seg :: rest) ct cw fi =
      ((if seg.start_time > ct then
          generate_inactive_segments_for_range ct seg.start_time cw bounds fi false
        else []) ++
        seg :: (fillLoop bounds rest (max seg.end_time ct) seg.window_id false).1,
       (fillLoop bounds rest (max seg.end_time ct) seg.window_id false).2) := rfl

/-- Walk invariant of `get_metadata_from_events_summary`'s main loop, giving
coverage of `(ct, ct']` (closed from `ct` on the first iteration), the final
cursor facts, and containment of every emitted segment in `[gs, ge]`. -/
theorem fillLoop_cover (bounds : List (Nat × RecordingSegment)) (gs ge : Int)
    (hnd : (bounds.map (fun p => p.1)).Nodup)
    (hcov : ∀ u : Int, gs ≤ u → u < ge →
      ∃ p ∈ bounds, p.2.start_time ≤ u ∧ u < p.2.end_time) :
    ∀ (A : List RecordingSegment) (ct : Int) (cw : Nat) (fi : Bool),
      (∀ s ∈ A, gs ≤ s.start_time ∧ s.start_time ≤ s.end_time ∧ s.end_time ≤ ge ∧
        ∃ b, lookupWindow bounds s.window_id = some b ∧ b.start_time ≤ s.start_time) →
      gs ≤ ct → ct ≤ ge →
      (∃ b, lookupWindow bounds cw = some b ∧ b.start_time ≤ ct) →
      (fi = true → ct = gs) →
      ct ≤ (fillLoop bounds A ct cw fi).2.1 ∧
      (fillLoop bounds A ct cw fi).2.1 ≤ ge ∧
      (∃ b, lookupWindow bounds (fillLoop bounds A ct cw fi).2.2 = some b ∧
        b.start_time ≤ (fillLoop bounds A ct cw fi).2.1) ∧
      (∀ u : Int, ct < u → u ≤ (fillLoop bounds A ct cw fi).2.1 →
        ∃ s ∈ (fillLoop bounds A ct cw fi).1, s.start_time ≤ u ∧ u ≤ s.end_time) ∧
      (fi = true → A ≠ [] →
        ∀ u : Int, ct ≤ u → u ≤ (fillLoop bounds A ct cw fi).2.1 →
          ∃ s ∈ (fillLoop bounds A ct cw fi).1, s.start_time ≤ u ∧ u ≤ s.end_time) ∧
      (∀ s ∈ (fillLoop bounds A ct cw fi).1, gs ≤ s.start_time ∧ s.end_time ≤ ge) := by
  intro A
  induction A with
  | nil =>
    intro ct cw fi _ hgs hge hcw _
    refine ⟨le_rfl, hge, hcw, ?_, ?_, ?_⟩
    · intro u h1 h2
      exact absurd (lt_of_lt_of_le h1 h2) (lt_irrefl ct)
    · intro _ hne
      exact absurd rfl hne
    · intro s hs
      cases hs
  | cons seg rest ih =>
    intro ct cw fi hA hgs hge hcw hfi
    obtain ⟨hseg_gs, hseg_se, hseg_ge, bseg, hbseg, hbseg_le⟩ :=
      hA seg (List.mem_cons_self _ _)
    have hA' : ∀ s ∈ rest, gs ≤ s.start_time ∧ s.start_time ≤ s.end_time ∧
        s.end_time ≤ ge ∧ ∃ b, lookupWindow bounds s.window_id = some b ∧
          b.start_time ≤ s.start_time :=
      fun s hs => hA s (List.mem_cons_of_mem _ hs)
    have hct2gs : gs ≤ max seg.end_time ct := le_trans hgs (le_max_right _ _)
    have hct2ge : max seg.end_time ct ≤ ge := max_le hseg_ge hge
    have hcw2 : ∃ b, lookupWindow bounds seg.window_id = some b ∧
        b.start_time ≤ max seg.end_time ct :=
      ⟨bseg, hbseg, le_trans hbseg_le (le_trans hseg_se (le_max_left _ _))⟩
    obtain ⟨ih1, ih2, ih3, ih4, _, ih6⟩ :=
      ih (max seg.end_time ct) seg.window_id false hA' hct2gs hct2ge hcw2
        (fun h => nomatch h)
    rw [fillLoop_cons]
    by_cases hgap : seg.start_time > ct
    · rw [if_pos hgap]
      have hcovgap : ∀ u : Int, ct ≤ u → u < seg.start_time →
          ∃ p ∈ bounds, p.2.start_time ≤ u ∧ u < p.2.end_time := by
        intro u h1 h2
        exact hcov u (le_trans hgs h1)
          (lt_of_lt_of_le h2 (le_trans hseg_se hseg_ge))
      have hgen := generate_cover bounds ct seg.start_time cw fi false hnd hgap hcw hcovgap
      have hgenb := generate_bounds bounds ct seg.start_time cw fi false
      have hcover : ∀ u : Int, (fi = true → ct ≤ u) → (fi = false → ct < u) →
          u ≤ (fillLoop bounds rest (max seg.end_time ct) seg.window_id false).2.1 →
          ∃ s ∈ (generate_inactive_segments_for_range ct seg.start_time cw bounds fi false) ++
              seg :: (fillLoop bounds rest (max seg.end_time ct) seg.window_id false).1,
            s.start_time ≤ u ∧ u ≤ s.end_time := by
        intro u hu1 hu2 hu3
        by_cases hu4 : u ≤ seg.start_time - 1
        · obtain ⟨s, hsm, hc⟩ := hgen u hu1 (fun hf => by have := hu2 hf; omega)
            (by omega) (fun _ => hu4)
          exact ⟨s, List.mem_append.mpr (Or.inl hsm), hc⟩
        · by_cases hu5 : u ≤ seg.end_time
          · refine ⟨seg, List.mem_append.mpr (Or.inr (List.mem_cons_self _ _)), by omega, hu5⟩
          · have huct : ct < u := by
              cases fi with
              | true =>
                have h1 := hu1 rfl
                omega
              | false => exact hu2 rfl
            obtain ⟨s, hsm, hc⟩ := ih4 u (max_lt (by omega) huct) hu3
            exact ⟨s, List.mem_append.mpr (Or.inr (List.mem_cons_of_mem _ hsm)), hc⟩
      refine ⟨le_trans (le_max_right _ _) ih1, ih2, ih3, ?_, ?_, ?_⟩
      · intro u h1 h2
        exact hcover u (fun _ => le_of_lt h1) (fun _ => h1) h2
      · intro hfi5 _ u h1 h2
        exact hcover u (fun _ => h1) (fun hf => by rw [hfi5] at hf; cases hf) h2
      · intro s hs
        rcases List.mem_append.mp hs with h | h
        · obtain ⟨hb1, hb2⟩ := hgenb s h
          exact ⟨le_trans hgs hb1, le_trans hb2 (le_trans hseg_se hseg_ge)⟩
        · rcases List.mem_cons.mp h with h' | h'
          · subst h'
            exact ⟨hseg_gs, hseg_ge⟩
          · exact ih6 s h'
    · rw [if_neg hgap]
      rw [List.nil_append]
      have hsegct : seg.start_time ≤ ct := le_of_not_lt hgap
      have hcover : ∀ u : Int, (fi = true → ct ≤ u) → (fi = false → ct < u) →
          u ≤ (fillLoop bounds rest (max seg.end_time ct) seg.window_id false).2.1 →
          ∃ s ∈ seg :: (fillLoop bounds rest (max seg.end_time ct) seg.window_id false).1,
            s.start_time ≤ u ∧ u ≤ s.end_time := by
        intro u hu1 hu2 hu3
        by_cases hu5 : u ≤ seg.end_time
        · cases fi with
          | true =>
            have hctgs := hfi rfl
            have hu := hu1 rfl
            refine ⟨seg, List.mem_cons_self _ _, ?_, hu5⟩
            omega
          | false =>
            have hu := hu2 rfl
            exact ⟨seg, List.mem_cons_self _ _, by omega, hu5⟩
        · have huct : ct < u := by
            cases fi with
            | true =>
              have h1 := hu1 rfl
              have hctgs := hfi rfl
              omega
            | false => exact hu2 rfl
          obtain ⟨s, hsm, hc⟩ := ih4 u (max_lt (by omega) huct) hu3
          exact ⟨s, List.mem_cons_of_mem _ hsm, hc⟩
      refine ⟨le_trans (le_max_right _ _) ih1, ih2, ih3, ?_, ?_, ?_⟩
      · intro u h1 h2
        exact hcover u (fun _ => le_of_lt h1) (fun _ => h1) h2
      · intro hfi5 _ u h1 h2
        exact hcover u (fun _ => h1) (fun hf => by rw [hfi5] at hf; cases hf) h2
      · intro s hs
        rcases List.mem_cons.mp hs with h' | h'
        · subst h'
          exact ⟨hseg_gs, hseg_ge⟩
        · exact ih6 s h'

/-- Inverting a successful `get_metadata_from_events_summary` call. -/
theorem metadata_inversion (m : List (Nat × List EventSummary)) (md : RecordingMetadata)
    (h : get_metadata_from_events_summary m = some md) :
    md.segments = allSegments m ∧
    md.start_time = first_start_time (boundsByWindow m) ∧
    md.end_time = last_end_time (boundsByWindow m) ∧
    m ≠ [] ∧ (∀ p ∈ m, p.2 ≠ []) := by
  unfold get_metadata_from_events_summary at h
  split at h
  · exact absurd h (by simp)
  · next hguard =>
    split at h
    · exact absurd h (by simp)
    obtain rfl := Option.some.inj h
    refine ⟨rfl, rfl, rfl, ?_, ?_⟩
    · intro hm
      subst hm
      simp at hguard
    · intro p hp hpe
      apply hguard
      rw [Bool.or_eq_true]
      right
      rw [List.any_eq_true]
      exact ⟨p, hp, by rw [hpe]; rfl⟩

/-- The keys of the per-window bounds dict are the input's keys. -/
theorem boundsByWindow_keys (m : List (Nat × List EventSummary)) :
    (boundsByWindow m).map (fun p => p.1) = m.map (fun p => p.1) := by
  unfold boundsByWindow
  rw [List.map_map]
  rfl

/-- Every segment in the sorted concatenation of all windows' active segments
lies within the recording range, is well-formed and active, and its window id
resolves to a window starting at or before the segment. -/
theorem allActive_members (m : List (Nat × List EventSummary))
    (hnd : (m.map (fun p => p.1)).Nodup)
    (hsorted : ∀ p ∈ m, List.Pairwise (fun a b => a.timestamp ≤ b.timestamp) p.2) :
    ∀ s ∈ allActiveSorted m,
      first_start_time (boundsByWindow m) ≤ s.start_time ∧
      s.start_time ≤ s.end_time ∧
      s.end_time ≤ last_end_time (boundsByWindow m) ∧
      (∃ b, lookupWindow (boundsByWindow m) s.window_id = some b ∧
        b.start_time ≤ s.start_time) ∧
      s.is_active = true := by
  intro s hs
  unfold allActiveSorted at hs
  have hs2 : s ∈ (m.map (fun p => get_active_segments_from_event_list p.2 p.1)).flatten :=
    (List.perm_insertionSort _ _).subset hs
  rw [List.mem_flatten] at hs2
  obtain ⟨l, hl, hsl⟩ := hs2
  rw [List.mem_map] at hl
  obtain ⟨p, hp, rfl⟩ := hl
  obtain ⟨hm1, hm2, hm3, hm4, hm5⟩ := get_active_members p.2 p.1 ACTIVITY_THRESHOLD_SECONDS
    (by norm_num [ACTIVITY_THRESHOLD_SECONDS]) (hsorted p hp) s hsl
  have hb : (p.1, windowBounds p.1 p.2) ∈ boundsByWindow m := by
    unfold boundsByWindow
    exact List.mem_map_of_mem _ hp
  have hndb : ((boundsByWindow m).map (fun q => q.1)).Nodup := by
    rw [boundsByWindow_keys]
    exact hnd
  have hlook : lookupWindow (boundsByWindow m) p.1 = some (windowBounds p.1 p.2) :=
    lookup_self_of_nodup _ hndb _ hb
  refine ⟨le_trans (first_start_time_le _ _ hb) hm1, hm2,
    le_trans hm3 (le_last_end_time _ _ hb), ⟨windowBounds p.1 p.2, ?_, hm1⟩, hm4⟩
  rw [hm5]
  exact hlook

/-- C1 (amended): whenever the per-window event lists are timestamp-sorted,
window ids are distinct, the recording spans a positive duration, and every
millisecond instant of `[global_start, global_end)` lies within some window's
bounds, the returned segment list covers every millisecond instant of the
closed interval `[global_start, global_end]`, and every segment lies within
that interval. -/
theorem c1_amended_coverage :
    ∀ (m : List (Nat × List EventSummary)) (md : RecordingMetadata),
      get_metadata_from_events_summary m = some md →
      (m.map (fun p => p.1)).Nodup →
      (∀ p ∈ m, List.Pairwise (fun a b => a.timestamp ≤ b.timestamp) p.2) →
      md.start_time < md.end_time →
      (∀ u : Int, md.start_time ≤ u → u < md.end_time →
        ∃ p ∈ m, (windowBounds p.1 p.2).start_time ≤ u ∧
          u < (windowBounds p.1 p.2).end_time) →
      (∀ t : Int, md.start_time ≤ t → t ≤ md.end_time →
        ∃ s ∈ md.segments, s.start_time ≤ t ∧ t ≤ s.end_time) ∧
      (∀ s ∈ md.segments, md.start_time ≤ s.start_time ∧ s.end_time ≤ md.end_time) := by
  intro m md h hnd hsorted hlt hcovm
  obtain ⟨hseg, hst, hen, hmne, _⟩ := metadata_inversion m md h
  have hcovb : ∀ u : Int, first_start_time (boundsByWindow m) ≤ u →
      u < last_end_time (boundsByWindow m) →
      ∃ p ∈ boundsByWindow m, p.2.start_time ≤ u ∧ u < p.2.end_time := by
    intro u h1 h2
    obtain ⟨p, hp, hc1, hc2⟩ := hcovm u (by rw [hst]; exact h1) (by rw [hen]; exact h2)
    exact ⟨(p.1, windowBounds p.1 p.2), List.mem_map_of_mem _ hp, hc1, hc2⟩
  have hndb : ((boundsByWindow m).map (fun q => q.1)).Nodup := by
    rw [boundsByWindow_keys]
    exact hnd
  have hbne : boundsByWindow m ≠ [] := by
    intro hb
    apply hmne
    unfold boundsByWindow at hb
    exact List.map_eq_nil_iff.mp hb
  obtain ⟨b0, hb0, hb0le⟩ := initialWindow_facts (boundsByWindow m) hndb hbne
  have hgsge : first_start_time (boundsByWindow m) ≤ last_end_time (boundsByWindow m) := by
    rw [← hst, ← hen]
    exact le_of_lt hlt
  have hA := allActive_members m hnd hsorted
  obtain ⟨w1, w2, w3, w4, w5, w6⟩ := fillLoop_cover (boundsByWindow m)
    (first_start_time (boundsByWindow m)) (last_end_time (boundsByWindow m)) hndb hcovb
    (allActiveSorted m) (first_start_time (boundsByWindow m))
    (initialWindowId (boundsByWindow m)) true
    (fun s hs => ⟨(hA s hs).1, (hA s hs).2.1, (hA s hs).2.2.1, (hA s hs).2.2.2.1⟩)
    le_rfl hgsge ⟨b0, hb0, hb0le⟩ (fun _ => rfl)
  have hltg : first_start_time (boundsByWindow m) < last_end_time (boundsByWindow m) := by
    rw [← hst, ← hen]
    exact hlt
  constructor
  · intro t h1 h2
    rw [hseg]
    rw [hst] at h1
    rw [hen] at h2
    unfold allSegments
    dsimp only
    by_cases htr : (fillLoop (boundsByWindow m) (allActiveSorted m)
        (first_start_time (boundsByWindow m)) (initialWindowId (boundsByWindow m)) true).2.1 <
        last_end_time (boundsByWindow m)
    · rw [if_pos htr]
      have hcovtr : ∀ u : Int,
          (fillLoop (boundsByWindow m) (allActiveSorted m)
            (first_start_time (boundsByWindow m)) (initialWindowId (boundsByWindow m))
              true).2.1 ≤ u →
          u < last_end_time (boundsByWindow m) →
          ∃ p ∈ boundsByWindow m, p.2.start_time ≤ u ∧ u < p.2.end_time := by
        intro u hu1 hu2
        exact hcovb u (le_trans w1 hu1) hu2
      by_cases hts : t ≤ (fillLoop (boundsByWindow m) (allActiveSorted m)
          (first_start_time (boundsByWindow m)) (initialWindowId (boundsByWindow m)) true).2.1
      · by_cases hA0 : allActiveSorted m = []
        · have hr21 : (fillLoop (boundsByWindow m) (allActiveSorted m)
              (first_start_time (boundsByWindow m)) (initialWindowId (boundsByWindow m))
                true).2.1 = first_start_time (boundsByWindow m) := by
            rw [hA0]
            rfl
          obtain ⟨s, hsm, hc⟩ := generate_cover (boundsByWindow m) _ _ _
            ((fillLoop (boundsByWindow m) (allActiveSorted m)
              (first_start_time (boundsByWindow m)) (initialWindowId (boundsByWindow m))
                true).2.1 == first_start_time (boundsByWindow m)) true hndb htr w3
            hcovtr t (fun _ => by omega) (fun hf => by simp [hr21] at hf)
            h2 (fun hf => nomatch hf)
          exact ⟨s, List.mem_append.mpr (Or.inr hsm), hc⟩
        · obtain ⟨s, hsm, hc⟩ := w5 rfl hA0 t h1 hts
          exact ⟨s, List.mem_append.mpr (Or.inl hsm), hc⟩
      · push_neg at hts
        obtain ⟨s, hsm, hc⟩ := generate_cover (boundsByWindow m) _ _ _ _ true hndb htr w3
          hcovtr t (fun _ => le_of_lt hts) (fun _ => by omega) h2 (fun hf => nomatch hf)
        exact ⟨s, List.mem_append.mpr (Or.inr hsm), hc⟩
    · rw [if_neg htr]
      push_neg at htr
      have hr21 : (fillLoop (boundsByWindow m) (allActiveSorted m)
          (first_start_time (boundsByWindow m)) (initialWindowId (boundsByWindow m))
            true).2.1 = last_end_time (boundsByWindow m) := le_antisymm w2 htr
      by_cases hA0 : allActiveSorted m = []
      · exfalso
        have : (fillLoop (boundsByWindow m) (allActiveSorted m)
            (first_start_time (boundsByWindow m)) (initialWindowId (boundsByWindow m))
              true).2.1 = first_start_time (boundsByWindow m) := by
          rw [hA0]
          rfl
        omega
      · obtain ⟨s, hsm, hc⟩ := w5 rfl hA0 t h1 (by omega)
        exact ⟨s, List.mem_append.mpr (Or.inl hsm), hc⟩
  · intro s hs
    rw [hseg] at hs
    unfold allSegments at hs
    dsimp only at hs
    rw [hst, hen]
    rcases List.mem_append.mp hs with hm | hm
    · exact w6 s hm
    · by_cases htr : (fillLoop (boundsByWindow m) (allActiveSorted m)
          (first_start_time (boundsByWindow m)) (initialWindowId (boundsByWindow m))
            true).2.1 < last_end_time (boundsByWindow m)
      · rw [if_pos htr] at hm
        obtain ⟨hb1, hb2⟩ := generate_bounds (boundsByWindow m) _ _ _ _ true s hm
        exact ⟨le_trans w1 hb1, hb2⟩
      · rw [if_neg htr] at hm
        cases hm

/-- `getLast?` of an append with a non-empty right part. -/
theorem getLast?_append_right {α : Type} : ∀ (l1 l2 : List α), l2 ≠ [] →
    (l1 ++ l2).getLast? = l2.getLast? := by
  intro l1
  induction l1 with
  | nil => intro l2 _; rfl
  | cons a l ih =>
    intro l2 h
    rw [List.cons_append]
    rw [getLast?_cons_of_ne _ _ (by
      intro hc
      exact h (List.append_eq_nil.mp hc).2)]
    exact ih l2 h

/-- Walk invariant of the main loop for boundary sharing: in the emitted list,
adjacent segments share a boundary instant only when both are active or the
instant is the recording start `gs`; additionally, the head only abuts a
preceding active segment ending at or before `ct` in those same cases, the
cursor is monotone, and the last emitted segment is active and ends at or
before the final cursor. -/
theorem fillLoop_noShare (bounds : List (Nat × RecordingSegment)) (gs : Int) :
    ∀ (A : List RecordingSegment) (ct : Int) (cw : Nat) (fi : Bool),
      (∀ s ∈ A, s.is_active = true) →
      (fi = true → ct = gs) →
      List.Chain' (fun a b => a.end_time = b.start_time →
        (a.is_active = true ∧ b.is_active = true) ∨ a.end_time = gs)
        (fillLoop bounds A ct cw fi).1 ∧
      (∀ hd ∈ (fillLoop bounds A ct cw fi).1.head?,
        ∀ a : RecordingSegment, a.is_active = true → a.end_time ≤ ct →
          (a.end_time = hd.start_time →
            (a.is_active = true ∧ hd.is_active = true) ∨ a.end_time = gs)) ∧
      ct ≤ (fillLoop bounds A ct cw fi).2.1 ∧
      (∀ lst ∈ (fillLoop bounds A ct cw fi).1.getLast?,
        lst.is_active = true ∧ lst.end_time ≤ (fillLoop bounds A ct cw fi).2.1) := by
  intro A
  induction A with
  | nil =>
    intro ct cw fi _ _
    refine ⟨List.chain'_nil, ?_, le_rfl, ?_⟩
    · intro hd hhd
      rw [show (fillLoop bounds [] ct cw fi).1 = [] from rfl] at hhd
      simp at hhd
    · intro lst hlst
      rw [show (fillLoop bounds [] ct cw fi).1 = [] from rfl] at hlst
      simp at hlst
  | cons seg rest ih =>
    intro ct cw fi hAact hfi
    have hsegact : seg.is_active = true := hAact seg (List.mem_cons_self _ _)
    obtain ⟨n1, n2, n3, n4⟩ := ih (max seg.end_time ct) seg.window_id false
      (fun s hs => hAact s (List.mem_cons_of_mem _ hs)) (fun h => nomatch h)
    rw [fillLoop_cons]
    have hchain2 : List.Chain' (fun a b => a.end_time = b.start_time →
        (a.is_active = true ∧ b.is_active = true) ∨ a.end_time = gs)
        (seg :: (fillLoop bounds rest (max seg.end_time ct) seg.window_id false).1) := by
      rw [List.chain'_cons']
      refine ⟨?_, n1⟩
      intro y hy
      exact n2 y hy seg hsegact (le_max_left _ _)
    have hlast2 : ∀ lst ∈ (seg ::
        (fillLoop bounds rest (max seg.end_time ct) seg.window_id false).1).getLast?,
        lst.is_active = true ∧
        lst.end_time ≤ (fillLoop bounds rest (max seg.end_time ct) seg.window_id false).2.1 := by
      intro lst hlst
      cases hro : (fillLoop bounds rest (max seg.end_time ct) seg.window_id false).1 with
      | nil =>
        rw [hro, List.getLast?_singleton, Option.mem_def] at hlst
        obtain rfl := Option.some.inj hlst
        exact ⟨hsegact, le_trans (le_max_left _ _) n3⟩
      | cons r0 rtl =>
        rw [hro, getLast?_cons_of_ne _ _ (List.cons_ne_nil _ _)] at hlst
        rw [← hro] at hlst
        exact n4 lst hlst
    by_cases hgap : seg.start_time > ct
    · rw [if_pos hgap]
      have hgchain := generate_chain_lt bounds ct seg.start_time cw fi false
      have hglast := generate_last_facts bounds ct seg.start_time cw fi false
      have hghead := generate_head_facts bounds ct seg.start_time cw fi false
      refine ⟨?_, ?_, le_trans (le_max_right _ _) n3, ?_⟩
      · rw [List.chain'_append]
        refine ⟨List.Chain'.imp ?_ hgchain, hchain2, ?_⟩
        · intro a b hab hshare
          omega
        · intro x hx y hy
          rw [List.head?_cons, Option.mem_def] at hy
          obtain rfl := Option.some.inj hy
          intro hshare
          exfalso
          obtain ⟨_, hxe⟩ := hglast x hx
          have := hxe rfl
          omega
      · intro hd hhd a haact haend
        cases hgapl : generate_inactive_segments_for_range ct seg.start_time cw bounds fi false with
        | nil =>
          rw [hgapl, List.nil_append, List.head?_cons, Option.mem_def] at hhd
          obtain rfl := Option.some.inj hhd
          intro _
          exact Or.inl ⟨haact, hsegact⟩
        | cons g0 gtl =>
          rw [hgapl, List.cons_append, List.head?_cons, Option.mem_def] at hhd
          obtain rfl := Option.some.inj hhd
          intro hshare
          obtain ⟨hge, hgeq⟩ := hghead g0 (by rw [hgapl]; rfl)
          by_cases hc : g0.start_time = ct
          · have hfit : fi = true := hgeq hc
            right
            rw [hshare, hc]
            exact hfi hfit
          · exfalso
            omega
      · intro lst hlst
        rw [getLast?_append_right _ _ (List.cons_ne_nil _ _)] at hlst
        exact hlast2 lst hlst
    · rw [if_neg hgap, List.nil_append]
      push_neg at hgap
      refine ⟨hchain2, ?_, le_trans (le_max_right _ _) n3, hlast2⟩
      intro hd hhd a haact haend
      rw [List.head?_cons, Option.mem_def] at hhd
      obtain rfl := Option.some.inj hhd
      intro _
      exact Or.inl ⟨haact, hsegact⟩

/-- C2 (amended): in the returned segment list, two adjacent segments share a
boundary instant (`end_time` of one equal to `start_time` of the next) only
when both segments are active, or at the instants `global_start`/`global_end`;
in particular an inactive segment never shares a boundary instant with a
neighbour except possibly at the recording start. -/
theorem c2_amended_no_shared_boundaries :
    ∀ (m : List (Nat × List EventSummary)) (md : RecordingMetadata),
      get_metadata_from_events_summary m = some md →
      List.Chain' (fun a b => a.end_time = b.start_time →
        (a.is_active = true ∧ b.is_active = true) ∨
        a.end_time = md.start_time ∨ a.end_time = md.end_time) md.segments := by
  intro m md h
  obtain ⟨hseg, hst, hen, _, _⟩ := metadata_inversion m md h
  rw [hseg, hst, hen]
  unfold allSegments
  dsimp only
  have hAact : ∀ s ∈ allActiveSorted m, s.is_active = true := by
    intro s hs
    unfold allActiveSorted at hs
    have hs2 := (List.perm_insertionSort _ _).subset hs
    rw [List.mem_flatten] at hs2
    obtain ⟨l, hl, hsl⟩ := hs2
    rw [List.mem_map] at hl
    obtain ⟨p, hp, rfl⟩ := hl
    exact (get_active_all_active p.2 p.1 _ s hsl).1
  obtain ⟨n1, _, _, n4⟩ := fillLoop_noShare (boundsByWindow m)
    (first_start_time (boundsByWindow m)) (allActiveSorted m)
    (first_start_time (boundsByWindow m)) (initialWindowId (boundsByWindow m)) true
    hAact (fun _ => rfl)
  have himp : ∀ a b : RecordingSegment,
      (a.end_time = b.start_time →
        (a.is_active = true ∧ b.is_active = true) ∨
        a.end_time = first_start_time (boundsByWindow m)) →
      (a.end_time = b.start_time →
        (a.is_active = true ∧ b.is_active = true) ∨
        a.end_time = first_start_time (boundsByWindow m) ∨
        a.end_time = last_end_time (boundsByWindow m)) := by
    intro a b hab hshare
    rcases hab hshare with h | h
    · exact Or.inl h
    · exact Or.inr (Or.inl h)
  by_cases htr : (fillLoop (boundsByWindow m) (allActiveSorted m)
      (first_start_time (boundsByWindow m)) (initialWindowId (boundsByWindow m))
        true).2.1 < last_end_time (boundsByWindow m)
  · rw [if_pos htr]
    rw [List.chain'_append]
    refine ⟨n1.imp himp, ?_, ?_⟩
    · refine (generate_chain_lt (boundsByWindow m) _ _ _ _ true).imp ?_
      intro a b hab hshare
      omega
    · intro x hx y hy
      obtain ⟨hxact, hxend⟩ := n4 x hx
      obtain ⟨hyge, hyeq⟩ := generate_head_facts (boundsByWindow m) _ _ _ _ true y hy
      intro hshare
      by_cases hc : y.start_time = (fillLoop (boundsByWindow m) (allActiveSorted m)
          (first_start_time (boundsByWindow m)) (initialWindowId (boundsByWindow m))
            true).2.1
      · have hflag := hyeq hc
        right
        left
        rw [hshare, hc]
        exact beq_iff_eq.mp hflag
      · exfalso
        omega
  · rw [if_neg htr]
    rw [List.append_nil]
    exact n1.imp himp

/-- Witness for C2 at Scenario A's one-window aggregation. -/
theorem c2_witness :
    List.Chain' (fun a b => a.end_time = b.start_time →
      (a.is_active = true ∧ b.is_active = true) ∨
      a.end_time = c2WitnessMd.start_time ∨ a.end_time = c2WitnessMd.end_time)
      c2WitnessMd.segments :=
  c2_amended_no_shared_boundaries c2WitnessInput c2WitnessMd rfl

/-- Witness for C1 at a one-window recording whose bounds cover the range:
the instant 12345 is covered by some returned segment. -/
theorem c1_witness :
    ∃ s ∈ c1WitnessMd.segments, s.start_time ≤ 12345 ∧ (12345 : Int) ≤ s.end_time :=
  (c1_amended_coverage c1WitnessInput c1WitnessMd rfl (by decide)
    (by
      intro p hp
      rw [show c1WitnessInput = [(1, [activeEv 0 1, activeEv 20000 1])] from rfl,
        List.mem_singleton] at hp
      subst hp
      decide)
    (by decide)
    (by
      intro u h1 h2
      refine ⟨(1, [activeEv 0 1, activeEv 20000 1]), ?_, ?_, ?_⟩
      · rw [show c1WitnessInput = [(1, [activeEv 0 1, activeEv 20000 1])] from rfl]
        exact List.mem_singleton.mpr rfl
      · exact h1
      · exact h2)).1
    12345 (by decide) (by decide)

end SessionRecording
